import Mathlib

/-!
# Directive comments of a Go module manifest

A shallow embedding of `gomoddirectivecomments.go` (package
`gomoddirectivecomments`): the functions `Parse`, `policyFromComment`,
`findLineBlock` and `policyFromLineBlock`, together with the part of the
`modfile` syntax tree and of the `strings` package that they read.

Go strings are modelled by `String` (a sequence of code points), Go slices by
lists, a pointer that may be nil by `Option`, and the map `map[string]string`
by a key-unique association list.  A call of `Parse` either stops with a
run-time failure (a nil dereference) or returns its pair of results.
-/

set_option linter.dupNamespace false

namespace GoModDirectiveComments

/-! ## The `strings` and `unicode` functions used by the package -/

/-- White space as `unicode.IsSpace` defines it: the Latin-1 spaces
`\t \n \v \f \r`, space, U+0085, U+00A0, and the code points of category Z. -/
def isSpace (c : Char) : Bool :=
  let n := c.toNat
  (9 ≤ n && n ≤ 13) || n == 32 || n == 133 || n == 160 || n == 5760 ||
  (8192 ≤ n && n ≤ 8202) || n == 8232 || n == 8233 || n == 8239 || n == 8287 ||
  n == 12288

/-- The test `strings.HasPrefix(s, pre)`. -/
def hasPrefix (s pre : String) : Bool := pre.data.isPrefixOf s.data

/-- The function `strings.TrimPrefix(s, pre)`: `s` without the leading `pre`
when it has it, `s` unchanged otherwise. -/
def trimPrefix (s pre : String) : String :=
  if hasPrefix s pre then ⟨s.data.drop pre.data.length⟩ else s

/-- The scan of `strings.Fields`: `cur` holds, reversed, the characters of the
field being read. -/
def fieldsAux : List Char → List Char → List (List Char)
  | [], cur => if cur.isEmpty then [] else [cur.reverse]
  | c :: cs, cur =>
    if isSpace c then
      if cur.isEmpty then fieldsAux cs [] else cur.reverse :: fieldsAux cs []
    else fieldsAux cs (c :: cur)

/-- The function `strings.Fields(s)`: the maximal runs of characters of `s`
that are not white space, in order. -/
def fields (s : String) : List String := (fieldsAux s.data []).map String.mk

/-! ## The part of the `modfile` syntax tree that `Parse` reads -/

/-- A `modfile.Position`; only the line number is read. -/
structure Position where
  Line : Int
  deriving DecidableEq, Repr

/-- A `modfile.Comment`: where it starts and its text, `//` included. -/
structure Comment where
  Start : Position
  Token : String
  deriving DecidableEq, Repr

/-- A `modfile.Line` with its embedded `Comments` (`Before`, `Suffix`), its
span (`Start`, `End`) and the `InBlock` flag. -/
structure Line where
  Before : List Comment
  Suffix : List Comment
  Start : Position
  End : Position
  InBlock : Bool
  deriving DecidableEq, Repr

/-- A `modfile.LineBlock` with its embedded `Comments` and the two positions
its `Span()` is computed from: `Start`, and `RParen`, the position of the
closing bracket (the end of the span is on the same line). -/
structure LineBlock where
  Before : List Comment
  Suffix : List Comment
  Start : Position
  RParen : Position
  deriving DecidableEq, Repr

/-- A `modfile.Expr` of a statement list: a comment block, a line or a line
block. -/
inductive Expr where
  | commentBlock (Before : List Comment) (Start : Position)
  | line (l : Line)
  | lineBlock (lb : LineBlock)
  deriving DecidableEq, Repr

/-- A `modfile.FileSyntax`: the top-level statement list. -/
structure FileSyntax where
  Stmt : List Expr
  deriving DecidableEq, Repr

/-- A `module.Version`. -/
structure Version where
  Path : String
  Version : String
  deriving DecidableEq, Repr

/-- A `modfile.Module`, the module declaration. -/
structure Module where
  Mod : Version
  Syntax : Option Line
  deriving DecidableEq, Repr

/-- A `modfile.Go`, the version declaration. -/
structure Go where
  Version : String
  Syntax : Option Line
  deriving DecidableEq, Repr

/-- A `modfile.Require`, one requirement entry. -/
structure Require where
  Mod : Version
  Indirect : Bool
  Syntax : Option Line
  deriving DecidableEq, Repr

/-- A `modfile.File`. -/
structure File where
  Module : Option Module
  Go : Option Go
  Require : List Require
  Syntax : Option FileSyntax
  deriving DecidableEq, Repr

/-! ## The result map -/

/-- The map `map[string]string`, as an association list with unique keys. -/
abbrev PolicyMap := List (String × String)

/-- The lookup `res[k]` with its presence flag. -/
def mapGet (m : PolicyMap) (k : String) : Option String := m.lookup k

/-- The statement `delete(res, k)`. -/
def mapDelete (m : PolicyMap) (k : String) : PolicyMap := m.filter (fun kv => kv.1 != k)

/-- The assignment `res[k] = v`. -/
def mapSet (m : PolicyMap) (k v : String) : PolicyMap := (k, v) :: mapDelete m k

/-! ## Errors and outcomes -/

/-- The errors `Parse` builds with `fmt.Errorf`. -/
inductive ParseError where
  | invalidPosition (pol : String)
  | failedComment (c : Comment) (cause : ParseError)
  | failedLineBlock (lb : LineBlock) (cause : ParseError)
  deriving DecidableEq, Repr

/-- What a step of `Parse` leads to: a run-time failure, an early
`return nil, err`, or a value to go on with. -/
inductive Step (α : Type) where
  | panic
  | fail (e : ParseError)
  | next (a : α)
  deriving DecidableEq, Repr

/-- What a call of `Parse` leads to: a run-time failure, or the returned pair
(the map, `none` for a nil map; the error, `none` for a nil error). -/
inductive Outcome where
  | panic
  | returned (res : Option PolicyMap) (err : Option ParseError)
  deriving DecidableEq, Repr

/-! ## The functions of the package -/

/-- The loop of `policyFromComment` over the fields; `pre` is
`namespace + ":"`. -/
def policyFromCommentLoop (pre : String) : List String → String × Option ParseError
  | [] => ("", none)
  | f :: fs =>
    let f1 := trimPrefix f "//"
    if hasPrefix f1 pre then (trimPrefix f1 pre, none)
    else policyFromCommentLoop pre fs

/-- The function `policyFromComment(token, namespace)`. -/
def policyFromComment (token nspace : String) : String × Option ParseError :=
  policyFromCommentLoop (nspace ++ ":") (fields (trimPrefix token "//"))

/-- The function `findLineBlock(exprs, line)`. -/
def findLineBlock : List Expr → Line → Option LineBlock
  | [], _ => none
  | Expr.lineBlock lb :: exprs, line =>
    if line.Start.Line ≥ lb.Start.Line ∧ line.End.Line ≤ lb.RParen.Line then some lb
    else findLineBlock exprs line
  | _ :: exprs, line => findLineBlock exprs line

/-- The loop of `policyFromLineBlock` over the comments of the block. -/
def policyFromLineBlockLoop (nspace : String) : List Comment → String × Option ParseError
  | [] => ("", none)
  | c :: cs =>
    if c.Token ≠ "" then
      match policyFromComment c.Token nspace with
      | (_, some err) => ("", some err)
      | (pol, none) => if pol ≠ "" then (pol, none) else policyFromLineBlockLoop nspace cs
    else policyFromLineBlockLoop nspace cs

/-- The function `policyFromLineBlock(lb, namespace)`. -/
def policyFromLineBlock (lb : LineBlock) (nspace : String) : String × Option ParseError :=
  policyFromLineBlockLoop nspace (lb.Before ++ lb.Suffix)

/-- The first loop of `Parse`, over the comments of the module declaration;
the second argument is `currentDefaultPolicy`. -/
def moduleLoop (nspace : String) : List Comment → String → Step String
  | [], cur => .next cur
  | c :: cs, cur =>
    if c.Token ≠ "" then
      match policyFromComment c.Token nspace with
      | (_, some err) => .fail (.failedComment c err)
      | (pol, none) => moduleLoop nspace cs pol
    else moduleLoop nspace cs cur

/-- The second loop of `Parse`, over the comments of the version declaration:
the error it returns with, if any. -/
def goLoop (nspace : String) : List Comment → Option ParseError
  | [] => none
  | c :: cs =>
    if c.Token ≠ "" then
      match policyFromComment c.Token nspace with
      | (_, some err) => some (.failedComment c err)
      | (pol, none) => some (.invalidPosition pol)
    else goLoop nspace cs

/-- The loop of `Parse` over the comments of one requirement entry; the
second argument is `pol`. -/
def entryLoop (nspace : String) : List Comment → String → Step String
  | [], pol => .next pol
  | c :: cs, pol =>
    if c.Token ≠ "" then
      match policyFromComment c.Token nspace with
      | (_, some err) => .fail (.failedComment c err)
      | (polFromComment, none) =>
        entryLoop nspace cs (if polFromComment ≠ "" then polFromComment else pol)
    else entryLoop nspace cs pol

/-- The block-level part of the body of the requirement loop (the statement
`if syn.InBlock`): `pol` after it. -/
def blockPolicy (mod : File) (nspace : String) (syn : Line) (pol : String) : Step String :=
  if syn.InBlock then
    match mod.Syntax with
    | none => .panic
    | some fs =>
      match findLineBlock fs.Stmt syn with
      | none => .next pol
      | some lineBlock =>
        match policyFromLineBlock lineBlock nspace with
        | (_, some err) => .fail (.failedLineBlock lineBlock err)
        | (lineBlockPol, none) => .next (if lineBlockPol ≠ "" then lineBlockPol else pol)
  else .next pol

/-- The policy an entry resolves to: `pol` in the body of the requirement loop
once the block-level and the entry-level comments have been read and the
empty policy has been replaced by the default, before the test against
`nilPolicy`. -/
def resolvePolicy (mod : File) (nspace currentDefaultPolicy : String) (syn : Line) :
    Step String :=
  match blockPolicy mod nspace syn currentDefaultPolicy with
  | .panic => .panic
  | .fail e => .fail e
  | .next pol =>
    match entryLoop nspace (syn.Before ++ syn.Suffix) pol with
    | .panic => .panic
    | .fail e => .fail e
    | .next pol => .next (if pol = "" then currentDefaultPolicy else pol)

/-- The end of the body of the requirement loop: the update of `res` for the
path `path` with the resolved policy `pol` (the warning written to the log is
not modelled). -/
def storePolicy (nilPolicy : String) (res : PolicyMap) (path pol : String) : PolicyMap :=
  let pol := if pol = nilPolicy then "" else pol
  if pol = "" then mapDelete res path else mapSet res path pol

/-- The third loop of `Parse`, over the requirement entries; the last
argument is `res`. -/
def requireLoop (mod : File) (nspace nilPolicy currentDefaultPolicy : String) :
    List Require → PolicyMap → Step PolicyMap
  | [], res => .next res
  | f :: fs, res =>
    match f.Syntax with
    | none => requireLoop mod nspace nilPolicy currentDefaultPolicy fs res
    | some syn =>
      match resolvePolicy mod nspace currentDefaultPolicy syn with
      | .panic => .panic
      | .fail e => .fail e
      | .next pol =>
        requireLoop mod nspace nilPolicy currentDefaultPolicy fs
          (storePolicy nilPolicy res f.Mod.Path pol)

/-- The running default after the first loop of `Parse`: a run-time failure
when the module declaration or its syntax is nil. -/
def moduleDefault (mod : File) (nspace nilPolicy : String) : Step String :=
  match mod.Module with
  | none => .panic
  | some m =>
    match m.Syntax with
    | none => .panic
    | some syn => moduleLoop nspace (syn.Before ++ syn.Suffix) nilPolicy

/-- The check of the version declaration, the second loop of `Parse`: a
run-time failure when the declaration or its syntax is nil. -/
def goCheck (mod : File) (nspace : String) : Step Unit :=
  match mod.Go with
  | none => .panic
  | some g =>
    match g.Syntax with
    | none => .panic
    | some syn =>
      match goLoop nspace (syn.Before ++ syn.Suffix) with
      | some e => .fail e
      | none => .next ()

/-- The function `Parse(mod, namespace, nilPolicy)`. -/
def Parse (mod : File) (nspace nilPolicy : String) : Outcome :=
  match moduleDefault mod nspace nilPolicy with
  | .panic => .panic
  | .fail e => .returned none (some e)
  | .next currentDefaultPolicy =>
    match goCheck mod nspace with
    | .panic => .panic
    | .fail e => .returned none (some e)
    | .next _ =>
      match requireLoop mod nspace nilPolicy currentDefaultPolicy mod.Require [] with
      | .panic => .panic
      | .fail e => .returned none (some e)
      | .next res => .returned (some res) none

/-! ## Notions of the specification -/

/-- The policy a comment text carries for the namespace: the string result of
`policyFromComment`, empty when the text has no directive. -/
def policyOf (token nspace : String) : String := (policyFromComment token nspace).1

/-- The comment text carries a directive for the namespace, possibly with an
empty value: one of its fields begins, after a leading `//`, with the
namespace and a colon. -/
def carriesDirective (token nspace : String) : Bool :=
  (fields (trimPrefix token "//")).any (fun f => hasPrefix (trimPrefix f "//") (nspace ++ ":"))

/-- The string has no white space character. -/
def noSpace (s : String) : Bool := s.data.all (fun c => !isSpace c)

/-- The directive of a comment text as the specification words it: remove one
leading `//` from the text, split it into fields, remove one leading `//`
from each field, take the first field that begins with the namespace and a
colon, and return what follows that beginning; empty when there is no such
field. -/
def specDirective (token nspace : String) : String :=
  match ((fields (trimPrefix token "//")).map (fun f => trimPrefix f "//")).find?
      (fun f => hasPrefix f (nspace ++ ":")) with
  | some f => ⟨f.data.drop (nspace ++ ":").data.length⟩
  | none => ""

/-- The line blocks of a statement list, in order. -/
def lineBlocks : List Expr → List LineBlock
  | [] => []
  | Expr.lineBlock lb :: exprs => lb :: lineBlocks exprs
  | _ :: exprs => lineBlocks exprs

/-- Two lines that differ at most in the comments attached to them. -/
def Line.sameButComments (l1 l2 : Line) : Prop :=
  l1.Start = l2.Start ∧ l1.End = l2.End ∧ l1.InBlock = l2.InBlock

/-- Two requirement entries that differ at most in the comments attached to
their lines. -/
def Require.sameButComments (r1 r2 : Require) : Prop :=
  r1.Mod = r2.Mod ∧ r1.Indirect = r2.Indirect ∧
    match r1.Syntax, r2.Syntax with
    | none, none => True
    | some l1, some l2 => l1.sameButComments l2
    | _, _ => False

/-- Two manifests that differ at most in the comments attached to requirement
entries whose path is not `d`: the same module and version declarations, the
same line blocks in their statement lists, and requirement lists that agree
entry by entry, up to the comments of the entries for other paths than `d`. -/
def File.sameButEntryCommentsOff (d : String) (mod1 mod2 : File) : Prop :=
  mod1.Module = mod2.Module ∧ mod1.Go = mod2.Go ∧
    mod1.Syntax.map (fun fs => lineBlocks fs.Stmt) =
      mod2.Syntax.map (fun fs => lineBlocks fs.Stmt) ∧
    List.Forall₂ (fun r1 r2 => r1 = r2 ∨ (r1.Mod.Path ≠ d ∧ r1.sameButComments r2))
      mod1.Require mod2.Require

/-- The string `s` occurs in `t` as a run of consecutive characters. -/
def occursIn (s t : String) : Prop := s.data <:+: t.data

instance (s t : String) : Decidable (occursIn s t) := by
  unfold occursIn; infer_instance

/-- The non-empty directives of a sequence of comments, in order. -/
def directives (nspace : String) (cs : List Comment) : List String :=
  (cs.map (fun c => policyOf c.Token nspace)).filter (fun p => p ≠ "")

/-- The comments of a line in leading-then-trailing order. -/
def Line.comments (l : Line) : List Comment := l.Before ++ l.Suffix

/-- The comments of a line block in leading-then-trailing order. -/
def LineBlock.comments (lb : LineBlock) : List Comment := lb.Before ++ lb.Suffix

/-- The line span of the block contains the line span of the entry. -/
def LineBlock.encloses (lb : LineBlock) (line : Line) : Prop :=
  lb.Start.Line ≤ line.Start.Line ∧ line.End.Line ≤ lb.RParen.Line

instance (lb : LineBlock) (line : Line) : Decidable (lb.encloses line) := by
  unfold LineBlock.encloses; infer_instance

/-! ## Example manifests -/

/-- A comment on line `n`. -/
def exComment (n : Int) (text : String) : Comment := ⟨⟨n⟩, text⟩

/-- A one-line statement on line `n`. -/
def exLine (n : Int) (before suffix : List Comment) (inBlock : Bool) : Line :=
  ⟨before, suffix, ⟨n⟩, ⟨n⟩, inBlock⟩

/-- A requirement entry for `path`. -/
def exRequire (path : String) (l : Line) : Require := ⟨⟨path, "v1.2.3"⟩, false, some l⟩

/-- The entry of `precedenceFile`: a leading and a trailing directive. -/
def precedenceEntry : Line :=
  exLine 8 [exComment 7 "// gomodjail:third"] [exComment 8 "// indirect; gomodjail:fourth"] true

/-- A manifest with a directive on the module line, one on a block, and an
entry of the block that has two of its own:
```
// gomodjail:first
module example.com/foo

go 1.23

// gomodjail:second
require (
	// gomodjail:third
	example.com/dep v1.2.3 // indirect; gomodjail:fourth
)
```
-/
def precedenceFile : File where
  Module := some ⟨⟨"example.com/foo", ""⟩, some (exLine 2 [exComment 1 "// gomodjail:first"] [] false)⟩
  Go := some ⟨"1.23", some (exLine 4 [] [] false)⟩
  Require := [exRequire "example.com/dep" precedenceEntry]
  Syntax := some ⟨[.line (exLine 2 [exComment 1 "// gomodjail:first"] [] false),
    .line (exLine 4 [] [] false),
    .lineBlock ⟨[exComment 5 "// gomodjail:second"], [], ⟨6⟩, ⟨9⟩⟩]⟩

/-- The first entry of `blockFile`, without a comment. -/
def blockEntry : Line := exLine 7 [] [] true

/-- The block of `blockFile`. -/
def blockOfBlockFile : LineBlock := ⟨[exComment 5 "// gomodjail:second"], [], ⟨6⟩, ⟨9⟩⟩

/-- A manifest with a directive on the module line and one on a block whose
entries have none:
```
// gomodjail:first
module example.com/foo

go 1.23

// gomodjail:second
require (
	example.com/dep v1.2.3
	example.com/other v1.2.3 // indirect
)
```
-/
def blockFile : File where
  Module := some ⟨⟨"example.com/foo", ""⟩, some (exLine 2 [exComment 1 "// gomodjail:first"] [] false)⟩
  Go := some ⟨"1.23", some (exLine 4 [] [] false)⟩
  Require := [exRequire "example.com/dep" blockEntry,
    exRequire "example.com/other" (exLine 8 [] [exComment 8 "// indirect"] true)]
  Syntax := some ⟨[.line (exLine 2 [exComment 1 "// gomodjail:first"] [] false),
    .line (exLine 4 [] [] false), .lineBlock blockOfBlockFile]⟩

/-- The manifest of the test case `global` of `TestParse`: a directive on the
module line, and four blocks of entries (lines 8 to 12, 16 to 19, 24 to 26 and
31 to 33), the last two with a directive of their own. -/
def testGlobalFile : File where
  Module := some ⟨⟨"example.com/foo", ""⟩,
    some (exLine 3 [exComment 2 "// gomodjail:confined"] [] false)⟩
  Go := some ⟨"1.23", some (exLine 5 [] [] false)⟩
  Require := [
    exRequire "example.com/mod100" (exLine 8 [] [] true),
    exRequire "example.com/mod101" (exLine 9 [] [exComment 9 "// gomodjail:unconfined"] true),
    exRequire "example.com/mod102" (exLine 10 [] [] true),
    exRequire "example.com/mod103" (exLine 12 [exComment 11 "// gomodjail:unconfined"] [] true),
    exRequire "example.com/mod200"
      (exLine 17 [exComment 16 "// gomodjail:unconfined"] [exComment 17 "// indirect"] true),
    exRequire "example.com/mod201" (exLine 18 [] [exComment 18 "// indirect"] true),
    exRequire "example.com/mod202" (exLine 19 [] [exComment 19 "// indirect"] true),
    exRequire "example.com/mod300" (exLine 24 [] [] true),
    exRequire "example.com/mod301" (exLine 25 [] [exComment 25 "// gomodjail:confined"] true),
    exRequire "example.com/mod302" (exLine 26 [] [] true),
    exRequire "example.com/mod400" (exLine 31 [] [exComment 31 "// indirect"] true),
    exRequire "example.com/mod401"
      (exLine 32 [] [exComment 32 "// indirect // gomodjail:unconfined"] true),
    exRequire "example.com/mod402" (exLine 33 [] [exComment 33 "// indirect"] true)]
  Syntax := some ⟨[
    .line (exLine 3 [exComment 2 "// gomodjail:confined"] [] false),
    .line (exLine 5 [] [] false),
    .lineBlock ⟨[], [], ⟨7⟩, ⟨13⟩⟩,
    .lineBlock ⟨[], [], ⟨15⟩, ⟨20⟩⟩,
    .lineBlock ⟨[exComment 22 "//gomodjail:unconfined"], [], ⟨23⟩, ⟨27⟩⟩,
    .lineBlock ⟨[exComment 29 "// gomodjail:confined"], [], ⟨30⟩, ⟨34⟩⟩]⟩

/-- The map the test case `global` expects. -/
def testGlobalExpected : PolicyMap := [
  ("example.com/mod402", "confined"), ("example.com/mod400", "confined"),
  ("example.com/mod301", "confined"), ("example.com/mod202", "confined"),
  ("example.com/mod201", "confined"), ("example.com/mod102", "confined"),
  ("example.com/mod100", "confined")]

/-- The leading comments of the module declaration of `lostDefaultFile`. -/
def lostDefaultComments : List Comment :=
  [exComment 1 "// gomodjail:confined", exComment 2 "// keep the dependencies sandboxed"]

/-- A manifest whose module declaration has a directive followed by a comment
without one:
```
// gomodjail:confined
// keep the dependencies sandboxed
module example.com/foo

go 1.23

require example.com/dep v1.2.3
```
-/
def lostDefaultFile : File where
  Module := some ⟨⟨"example.com/foo", ""⟩, some (exLine 3 lostDefaultComments [] false)⟩
  Go := some ⟨"1.23", some (exLine 5 [] [] false)⟩
  Require := [exRequire "example.com/dep" (exLine 7 [] [] false)]
  Syntax := some ⟨[.line (exLine 3 lostDefaultComments [] false),
    .line (exLine 5 [] [] false), .line (exLine 7 [] [] false)]⟩

/-- A manifest with a directive on the version line:
```
module example.com/foo

go 1.23 // gomodjail:confined

require example.com/dep v1.2.3 // gomodjail:confined
```
-/
def goDirectiveFile : File where
  Module := some ⟨⟨"example.com/foo", ""⟩, some (exLine 1 [] [] false)⟩
  Go := some ⟨"1.23", some (exLine 3 [] [exComment 3 "// gomodjail:confined"] false)⟩
  Require := [exRequire "example.com/dep" (exLine 5 [] [exComment 5 "// gomodjail:confined"] false)]
  Syntax := some ⟨[.line (exLine 1 [] [] false),
    .line (exLine 3 [] [exComment 3 "// gomodjail:confined"] false),
    .line (exLine 5 [] [exComment 5 "// gomodjail:confined"] false)]⟩

/-- A manifest without any directive, with a comment on the version line:
```
module example.com/foo

go 1.23 // the oldest toolchain we test with

require example.com/dep v1.2.3
```
-/
def plainGoCommentFile : File where
  Module := some ⟨⟨"example.com/foo", ""⟩, some (exLine 1 [] [] false)⟩
  Go := some ⟨"1.23",
    some (exLine 3 [] [exComment 3 "// the oldest toolchain we test with"] false)⟩
  Require := [exRequire "example.com/dep" (exLine 5 [] [] false)]
  Syntax := some ⟨[.line (exLine 1 [] [] false),
    .line (exLine 3 [] [exComment 3 "// the oldest toolchain we test with"] false),
    .line (exLine 5 [] [] false)]⟩

/-- The last entry of `duplicateFile`, without a comment. -/
def duplicateLast : Line := exLine 7 [] [] false

/-- The entries of `duplicateFile`. -/
def duplicateEntries : List Require := [
  exRequire "example.com/modX" (exLine 5 [] [exComment 5 "// gomodjail:confined"] false),
  exRequire "example.com/modY" (exLine 6 [] [exComment 6 "// gomodjail:confined"] false),
  ⟨⟨"example.com/modX", "v1.2.4"⟩, false, some duplicateLast⟩]

/-- A manifest with two requirement lines for one path, the first with a
directive and the second without:
```
module example.com/foo

go 1.23

require example.com/modX v1.2.3 // gomodjail:confined
require example.com/modY v1.2.3 // gomodjail:confined
require example.com/modX v1.2.4
```
-/
def duplicateFile : File where
  Module := some ⟨⟨"example.com/foo", ""⟩, some (exLine 1 [] [] false)⟩
  Go := some ⟨"1.23", some (exLine 3 [] [] false)⟩
  Require := duplicateEntries
  Syntax := some ⟨[.line (exLine 1 [] [] false), .line (exLine 3 [] [] false),
    .line (exLine 5 [] [exComment 5 "// gomodjail:confined"] false),
    .line (exLine 6 [] [exComment 6 "// gomodjail:confined"] false),
    .line duplicateLast]⟩

/-- The manifest of the test case `blockless` of `TestParse`:
```
module example.com/foo

go 1.23

require example.com/mod v1.2.3 // gomodjail:confined
```
-/
def testBlocklessFile : File where
  Module := some ⟨⟨"example.com/foo", ""⟩, some (exLine 2 [] [] false)⟩
  Go := some ⟨"1.23", some (exLine 4 [] [] false)⟩
  Require := [exRequire "example.com/mod" (exLine 6 [] [exComment 6 "// gomodjail:confined"] false)]
  Syntax := some ⟨[.line (exLine 2 [] [] false), .line (exLine 4 [] [] false),
    .line (exLine 6 [] [exComment 6 "// gomodjail:confined"] false)]⟩

/-- The second entry of `carryFile` and `carryFileBare`, without a comment. -/
def carryPlainEntry : Line := exLine 7 [] [] true

/-- The block of `carryFile` and `carryFileBare`. -/
def carryBlock : LineBlock := ⟨[], [], ⟨5⟩, ⟨8⟩⟩

/-- A manifest in which an entry with a directive is followed by an entry
without one:
```
module example.com/foo

go 1.23

require (
	example.com/mod100 v1.2.3 // gomodjail:confined
	example.com/mod101 v1.2.3
)
```
-/
def carryFile : File where
  Module := some ⟨⟨"example.com/foo", ""⟩, some (exLine 1 [] [] false)⟩
  Go := some ⟨"1.23", some (exLine 3 [] [] false)⟩
  Require := [
    exRequire "example.com/mod100" (exLine 6 [] [exComment 6 "// gomodjail:confined"] true),
    exRequire "example.com/mod101" carryPlainEntry]
  Syntax := some ⟨[.line (exLine 1 [] [] false), .line (exLine 3 [] [] false),
    .lineBlock carryBlock]⟩

/-- The manifest `carryFile` without the comment of its first entry. -/
def carryFileBare : File where
  Module := some ⟨⟨"example.com/foo", ""⟩, some (exLine 1 [] [] false)⟩
  Go := some ⟨"1.23", some (exLine 3 [] [] false)⟩
  Require := [
    exRequire "example.com/mod100" (exLine 6 [] [] true),
    exRequire "example.com/mod101" carryPlainEntry]
  Syntax := some ⟨[.line (exLine 1 [] [] false), .line (exLine 3 [] [] false),
    .lineBlock carryBlock]⟩

/-- The third line block of the test case `global`, lines 23 to 27. -/
def globalThirdBlock : LineBlock := ⟨[exComment 22 "//gomodjail:unconfined"], [], ⟨23⟩, ⟨27⟩⟩

/-- The statement list of the test case `global`. -/
def globalStmts : List Expr := [
  .line (exLine 3 [exComment 2 "// gomodjail:confined"] [] false),
  .line (exLine 5 [] [] false),
  .lineBlock ⟨[], [], ⟨7⟩, ⟨13⟩⟩,
  .lineBlock ⟨[], [], ⟨15⟩, ⟨20⟩⟩,
  .lineBlock globalThirdBlock,
  .lineBlock ⟨[exComment 29 "// gomodjail:confined"], [], ⟨30⟩, ⟨34⟩⟩]

/-- The standalone entry of `standaloneFile`. -/
def standaloneEntry : Line := exLine 11 [] [] false

/-- A manifest with a directive on the module line, a block with a directive
of its own, and a standalone requirement after the block:
```
// gomodjail:first
module example.com/foo

go 1.23

// gomodjail:second
require (
	example.com/dep v1.2.3
)

require example.com/alone v1.2.3
```
-/
def standaloneFile : File where
  Module := some ⟨⟨"example.com/foo", ""⟩,
    some (exLine 2 [exComment 1 "// gomodjail:first"] [] false)⟩
  Go := some ⟨"1.23", some (exLine 4 [] [] false)⟩
  Require := [exRequire "example.com/dep" (exLine 8 [] [] true),
    exRequire "example.com/alone" standaloneEntry]
  Syntax := some ⟨[.line (exLine 2 [exComment 1 "// gomodjail:first"] [] false),
    .line (exLine 4 [] [] false),
    .lineBlock ⟨[exComment 6 "// gomodjail:second"], [], ⟨7⟩, ⟨9⟩⟩,
    .line standaloneEntry]⟩

/-- The entry of the first block of `emptyDirectiveFile`. -/
def emptyDirectiveEntry : Line := exLine 8 [] [exComment 8 "// gomodjail:"] true

/-- The entry of the second block of `emptyDirectiveFile`. -/
def emptyDirectiveOther : Line := exLine 13 [] [] true

/-- A manifest with directives that have an empty value, one on an entry and
one on a block:
```
// gomodjail:first
module example.com/foo

go 1.23

// gomodjail:second
require (
	example.com/dep v1.2.3 // gomodjail:
)

// gomodjail:
require (
	example.com/other v1.2.3
)
```
-/
def emptyDirectiveFile : File where
  Module := some ⟨⟨"example.com/foo", ""⟩,
    some (exLine 2 [exComment 1 "// gomodjail:first"] [] false)⟩
  Go := some ⟨"1.23", some (exLine 4 [] [] false)⟩
  Require := [exRequire "example.com/dep" emptyDirectiveEntry,
    exRequire "example.com/other" emptyDirectiveOther]
  Syntax := some ⟨[.line (exLine 2 [exComment 1 "// gomodjail:first"] [] false),
    .line (exLine 4 [] [] false),
    .lineBlock ⟨[exComment 6 "// gomodjail:second"], [], ⟨7⟩, ⟨9⟩⟩,
    .lineBlock ⟨[exComment 11 "// gomodjail:"], [], ⟨12⟩, ⟨14⟩⟩]⟩

/-- A manifest without a version declaration, as `modfile.Parse` returns it
for a file that has no `go` line (`Go` is nil):
```
module example.com/foo

require example.com/dep v1.2.3 // gomodjail:confined
```
-/
def noGoFile : File where
  Module := some ⟨⟨"example.com/foo", ""⟩, some (exLine 1 [] [] false)⟩
  Go := none
  Require := [exRequire "example.com/dep"
    (exLine 3 [] [exComment 3 "// gomodjail:confined"] false)]
  Syntax := some ⟨[.line (exLine 1 [] [] false),
    .line (exLine 3 [] [exComment 3 "// gomodjail:confined"] false)]⟩

/-- A manifest without a module declaration (`Module` is nil):
```
go 1.23

require example.com/dep v1.2.3 // gomodjail:confined
```
-/
def noModuleFile : File where
  Module := none
  Go := some ⟨"1.23", some (exLine 1 [] [] false)⟩
  Require := [exRequire "example.com/dep"
    (exLine 3 [] [exComment 3 "// gomodjail:confined"] false)]
  Syntax := some ⟨[.line (exLine 1 [] [] false),
    .line (exLine 3 [] [exComment 3 "// gomodjail:confined"] false)]⟩

/-- The map `Parse` returns for the test case `global` when `nilPolicy` is
`not confined`. -/
def spacedNilExpected : PolicyMap := [
  ("example.com/mod402", "confined"), ("example.com/mod401", "unconfined"),
  ("example.com/mod400", "confined"), ("example.com/mod302", "unconfined"),
  ("example.com/mod301", "confined"), ("example.com/mod300", "unconfined"),
  ("example.com/mod202", "confined"), ("example.com/mod201", "confined"),
  ("example.com/mod200", "unconfined"), ("example.com/mod103", "unconfined"),
  ("example.com/mod102", "confined"), ("example.com/mod101", "unconfined"),
  ("example.com/mod100", "confined")]

/-- The manifest `goDirectiveFile` without its module declaration (`Module`
is nil), as `modfile.Parse` returns it for a file that has no `module` line:
```
go 1.23 // gomodjail:confined

require example.com/dep v1.2.3 // gomodjail:confined
```
-/
def noModuleGoDirectiveFile : File where
  Module := none
  Go := some ⟨"1.23", some (exLine 1 [] [exComment 1 "// gomodjail:confined"] false)⟩
  Require := [exRequire "example.com/dep" (exLine 3 [] [exComment 3 "// gomodjail:confined"] false)]
  Syntax := some ⟨[.line (exLine 1 [] [exComment 1 "// gomodjail:confined"] false),
    .line (exLine 3 [] [exComment 3 "// gomodjail:confined"] false)]⟩

/-! ## Lemmas: the extraction of a directive -/

theorem policyFromCommentLoop_snd (pre : String) (fs : List String) :
    (policyFromCommentLoop pre fs).2 = none := by
  induction fs with
  | nil => rfl
  | cons f fs ih =>
    simp only [policyFromCommentLoop]
    split
    · rfl
    · exact ih

theorem policyFromComment_snd (token nspace : String) :
    (policyFromComment token nspace).2 = none :=
  policyFromCommentLoop_snd _ _

theorem policyFromComment_eq (token nspace : String) :
    policyFromComment token nspace = (policyOf token nspace, none) := by
  have h := policyFromComment_snd token nspace
  unfold policyOf
  cases hp : policyFromComment token nspace with
  | mk a b => rw [hp] at h; simp at h; simp [h]

theorem policyOf_empty (nspace : String) : policyOf "" nspace = "" := by
  simp [policyOf, policyFromComment, trimPrefix, hasPrefix, fields, fieldsAux,
    policyFromCommentLoop]

theorem directives_nil (nspace : String) : directives nspace [] = [] := rfl

theorem directives_cons (nspace : String) (c : Comment) (cs : List Comment) :
    directives nspace (c :: cs) =
      if policyOf c.Token nspace = "" then directives nspace cs
      else policyOf c.Token nspace :: directives nspace cs := by
  simp only [directives, List.map_cons, List.filter_cons]
  by_cases h : policyOf c.Token nspace = "" <;> simp [h]

theorem directives_append (nspace : String) (cs ds : List Comment) :
    directives nspace (cs ++ ds) = directives nspace cs ++ directives nspace ds := by
  simp [directives]

/-! ## Lemmas: the fields of a comment text -/

theorem fieldsAux_nonspace (w rest cur : List Char) (hw : ∀ c ∈ w, isSpace c = false) :
    fieldsAux (w ++ rest) cur = fieldsAux rest (w.reverse ++ cur) := by
  induction w generalizing cur with
  | nil => rfl
  | cons c w ih =>
    have hc : isSpace c = false := hw c (List.mem_cons_self _ _)
    have ih' := ih (c :: cur) (fun d hd => hw d (List.mem_cons_of_mem _ hd))
    simp [fieldsAux, hc, ih']

theorem fieldsAux_word (w rest : List Char) (s : Char) (hne : w ≠ [])
    (hw : ∀ c ∈ w, isSpace c = false) (hs : isSpace s = true) :
    fieldsAux (w ++ s :: rest) [] = w :: fieldsAux rest [] := by
  rw [fieldsAux_nonspace w _ _ hw]
  simp [fieldsAux, hs, hne]

theorem fieldsAux_space (rest : List Char) (s : Char) (hs : isSpace s = true) :
    fieldsAux (s :: rest) [] = fieldsAux rest [] := by
  simp [fieldsAux, hs]

theorem fieldsAux_last (w : List Char) (hne : w ≠ [])
    (hw : ∀ c ∈ w, isSpace c = false) :
    fieldsAux w [] = [w] := by
  have := fieldsAux_nonspace w [] [] hw
  simp only [List.append_nil] at this
  rw [this]
  simp [fieldsAux, hne]

theorem mem_of_hasPrefix_colon {s nspace : String} (h : hasPrefix s (nspace ++ ":") = true) :
    ':' ∈ s.data := by
  simp only [hasPrefix, String.data_append, List.isPrefixOf_iff_prefix] at h
  obtain ⟨t, ht⟩ := h
  rw [← ht]
  simp

theorem policyFromCommentLoop_skip (nspace f : String) (fs : List String)
    (h : ':' ∉ (trimPrefix f "//").data) :
    policyFromCommentLoop (nspace ++ ":") (f :: fs) =
      policyFromCommentLoop (nspace ++ ":") fs := by
  have : hasPrefix (trimPrefix f "//") (nspace ++ ":") = false := by
    cases hh : hasPrefix (trimPrefix f "//") (nspace ++ ":") with
    | false => rfl
    | true => exact absurd (mem_of_hasPrefix_colon hh) h
  simp [policyFromCommentLoop, this]

theorem policyFromCommentLoop_hit (nspace p f : String) (fs : List String)
    (h : trimPrefix f "//" = nspace ++ ":" ++ p) :
    policyFromCommentLoop (nspace ++ ":") (f :: fs) = (p, none) := by
  have h1 : hasPrefix (nspace ++ ":" ++ p) (nspace ++ ":") = true := by
    simp [hasPrefix, String.data_append]
  have h2 : trimPrefix (nspace ++ ":" ++ p) (nspace ++ ":") = p := by
    apply String.ext
    have e : (nspace ++ ":" ++ p).data = (nspace.data ++ [':']) ++ p.data := by
      simp [String.data_append]
    have l : (nspace ++ ":").data.length = (nspace.data ++ [':']).length := by
      simp [String.data_append]
    simp only [trimPrefix, h1, if_true, e, l]
    exact List.drop_left _ _
  simp [policyFromCommentLoop, h, h1, h2]

theorem hasPrefix_slashes_word (nspace p : String) (h : hasPrefix nspace "//" = false) :
    hasPrefix (nspace ++ ":" ++ p) "//" = false := by
  cases hh : hasPrefix (nspace ++ ":" ++ p) "//" with
  | false => rfl
  | true =>
    exfalso
    have e : "//".data = ['/', '/'] := rfl
    simp only [hasPrefix, String.data_append, e] at h hh
    match hn : nspace.data with
    | [] => simp [hn, List.isPrefixOf] at hh
    | [a] => simp [hn, List.isPrefixOf] at hh
    | a :: b :: l =>
      simp [hn, List.isPrefixOf] at hh h
      exact h hh.1 hh.2

theorem trimPrefix_slashes_word (nspace p : String) (h : hasPrefix nspace "//" = false) :
    trimPrefix (nspace ++ ":" ++ p) "//" = nspace ++ ":" ++ p := by
  simp [trimPrefix, hasPrefix_slashes_word nspace p h]

theorem trimPrefix_slashes_cons (s : String) (rest : List Char)
    (h : s.data = '/' :: '/' :: rest) : trimPrefix s "//" = ⟨rest⟩ := by
  have e : "//".data = ['/', '/'] := rfl
  simp [trimPrefix, hasPrefix, h, e, List.isPrefixOf]

theorem word_ne_nil (nspace p : String) : (nspace ++ ":" ++ p).data ≠ [] := by
  simp [String.data_append]

theorem word_noSpace (nspace p : String) (hn : noSpace nspace = true) (hp : noSpace p = true) :
    ∀ c ∈ (nspace ++ ":" ++ p).data, isSpace c = false := by
  intro c hc
  simp only [noSpace, List.all_eq_true, Bool.not_eq_true'] at hn hp
  simp only [String.data_append, List.mem_append] at hc
  rcases hc with (hc | hc) | hc
  · exact hn c hc
  · have : c = ':' := by simpa using hc
    subst this; decide
  · exact hp c hc

theorem policyOf_plain (nspace p : String) (hn : noSpace nspace = true)
    (hp : noSpace p = true) (hs : hasPrefix nspace "//" = false) :
    policyOf ("// " ++ nspace ++ ":" ++ p) nspace = p := by
  have e : ("// " ++ nspace ++ ":" ++ p).data =
      '/' :: '/' :: ' ' :: (nspace ++ ":" ++ p).data := by
    simp [String.data_append]
  have hf : fields (trimPrefix ("// " ++ nspace ++ ":" ++ p) "//") = [nspace ++ ":" ++ p] := by
    rw [trimPrefix_slashes_cons _ _ e]
    simp only [fields]
    rw [fieldsAux_space _ _ (by decide),
      fieldsAux_last _ (word_ne_nil nspace p) (word_noSpace nspace p hn hp)]
    rfl
  simp only [policyOf, policyFromComment, hf]
  rw [policyFromCommentLoop_hit nspace p _ _ (trimPrefix_slashes_word nspace p hs)]

theorem policyOf_after_semicolon (nspace p : String) (hn : noSpace nspace = true)
    (hp : noSpace p = true) (hs : hasPrefix nspace "//" = false) :
    policyOf ("// indirect; " ++ nspace ++ ":" ++ p) nspace = p := by
  have e : ("// indirect; " ++ nspace ++ ":" ++ p).data =
      '/' :: '/' :: ' ' :: ("indirect;".data ++ ' ' :: (nspace ++ ":" ++ p).data) := by
    simp [String.data_append]
  have hf : fields (trimPrefix ("// indirect; " ++ nspace ++ ":" ++ p) "//") =
      ["indirect;", nspace ++ ":" ++ p] := by
    rw [trimPrefix_slashes_cons _ _ e]
    simp only [fields]
    rw [fieldsAux_space _ _ (by decide),
      fieldsAux_word _ _ _ (by decide) (by decide) (by decide),
      fieldsAux_last _ (word_ne_nil nspace p) (word_noSpace nspace p hn hp)]
    rfl
  simp only [policyOf, policyFromComment, hf]
  rw [policyFromCommentLoop_skip nspace _ _ (by decide),
    policyFromCommentLoop_hit nspace p _ _ (trimPrefix_slashes_word nspace p hs)]

theorem policyOf_after_nested_marker (nspace p : String) (hn : noSpace nspace = true)
    (hp : noSpace p = true) (hs : hasPrefix nspace "//" = false) :
    policyOf ("// indirect // " ++ nspace ++ ":" ++ p) nspace = p := by
  have e : ("// indirect // " ++ nspace ++ ":" ++ p).data =
      '/' :: '/' :: ' ' ::
        ("indirect".data ++ ' ' :: ("//".data ++ ' ' :: (nspace ++ ":" ++ p).data)) := by
    simp [String.data_append]
  have hf : fields (trimPrefix ("// indirect // " ++ nspace ++ ":" ++ p) "//") =
      ["indirect", "//", nspace ++ ":" ++ p] := by
    rw [trimPrefix_slashes_cons _ _ e]
    simp only [fields]
    rw [fieldsAux_space _ _ (by decide),
      fieldsAux_word _ _ _ (by decide) (by decide) (by decide),
      fieldsAux_word _ _ _ (by decide) (by decide) (by decide),
      fieldsAux_last _ (word_ne_nil nspace p) (word_noSpace nspace p hn hp)]
    rfl
  simp only [policyOf, policyFromComment, hf]
  rw [policyFromCommentLoop_skip nspace _ _ (by decide),
    policyFromCommentLoop_skip nspace _ _ (by decide),
    policyFromCommentLoop_hit nspace p _ _ (trimPrefix_slashes_word nspace p hs)]

theorem policyOf_after_attached_marker (nspace p : String) (hn : noSpace nspace = true)
    (hp : noSpace p = true) :
    policyOf ("// indirect //" ++ nspace ++ ":" ++ p) nspace = p := by
  have e : ("// indirect //" ++ nspace ++ ":" ++ p).data =
      '/' :: '/' :: ' ' :: ("indirect".data ++ ' ' :: ("//" ++ (nspace ++ ":" ++ p)).data) := by
    simp [String.data_append]
  have hw : ∀ c ∈ ("//" ++ (nspace ++ ":" ++ p)).data, isSpace c = false := by
    intro c hc
    rw [String.data_append, List.mem_append] at hc
    rcases hc with hc | hc
    · revert c; decide
    · exact word_noSpace nspace p hn hp c hc
  have hf : fields (trimPrefix ("// indirect //" ++ nspace ++ ":" ++ p) "//") =
      ["indirect", "//" ++ (nspace ++ ":" ++ p)] := by
    rw [trimPrefix_slashes_cons _ _ e]
    simp only [fields]
    rw [fieldsAux_space _ _ (by decide),
      fieldsAux_word _ _ _ (by decide) (by decide) (by decide),
      fieldsAux_last _ (by simp [String.data_append]) hw]
    rfl
  have ht : trimPrefix ("//" ++ (nspace ++ ":" ++ p)) "//" = nspace ++ ":" ++ p :=
    trimPrefix_slashes_cons _ _ (by simp [String.data_append])
  simp only [policyOf, policyFromComment, hf]
  rw [policyFromCommentLoop_skip nspace _ _ (by decide),
    policyFromCommentLoop_hit nspace p _ _ ht]

theorem policyOf_bare (nspace p : String) (hn : noSpace nspace = true)
    (hp : noSpace p = true) (hs : hasPrefix nspace "//" = false) :
    policyOf ("//" ++ nspace ++ ":" ++ p) nspace = p := by
  have e : ("//" ++ nspace ++ ":" ++ p).data = '/' :: '/' :: (nspace ++ ":" ++ p).data := by
    simp [String.data_append]
  have hf : fields (trimPrefix ("//" ++ nspace ++ ":" ++ p) "//") = [nspace ++ ":" ++ p] := by
    rw [trimPrefix_slashes_cons _ _ e]
    simp only [fields]
    rw [fieldsAux_last _ (word_ne_nil nspace p) (word_noSpace nspace p hn hp)]
    rfl
  simp only [policyOf, policyFromComment, hf]
  rw [policyFromCommentLoop_hit nspace p _ _ (trimPrefix_slashes_word nspace p hs)]

theorem policyFromCommentLoop_eq_find (pre : String) (fs : List String) :
    policyFromCommentLoop pre fs =
      (match (fs.map (fun f => trimPrefix f "//")).find? (fun f => hasPrefix f pre) with
        | some f => trimPrefix f pre
        | none => "", none) := by
  induction fs with
  | nil => rfl
  | cons f fs ih =>
    simp only [policyFromCommentLoop, List.map_cons, List.find?_cons]
    cases h : hasPrefix (trimPrefix f "//") pre with
    | true => simp
    | false => simpa using ih

theorem policyFromCommentLoop_first (pre f : String) (before after : List String)
    (hb : ∀ g ∈ before, hasPrefix (trimPrefix g "//") pre = false)
    (hf : hasPrefix (trimPrefix f "//") pre = true) :
    policyFromCommentLoop pre (before ++ f :: after) =
      (trimPrefix (trimPrefix f "//") pre, none) := by
  induction before with
  | nil => simp [policyFromCommentLoop, hf]
  | cons g gs ih =>
    have hg := hb g (List.mem_cons_self _ _)
    simp only [List.cons_append, policyFromCommentLoop, hg]
    simpa using ih (fun g' hg' => hb g' (List.mem_cons_of_mem _ hg'))

theorem policyOf_eq_specDirective (token nspace : String) :
    policyOf token nspace = specDirective token nspace := by
  simp only [policyOf, policyFromComment, policyFromCommentLoop_eq_find, specDirective]
  cases h : ((fields (trimPrefix token "//")).map (fun f => trimPrefix f "//")).find?
      (fun f => hasPrefix f (nspace ++ ":")) with
  | none => rfl
  | some f =>
    have hf : hasPrefix f (nspace ++ ":") = true := by
      simpa using List.find?_some h
    simp [trimPrefix, hf]

/-! ## Lemmas: the loops of `Parse` -/

theorem entryLoop_eq (nspace : String) (cs : List Comment) (pol : String) :
    entryLoop nspace cs pol = .next ((directives nspace cs).getLast?.getD pol) := by
  induction cs generalizing pol with
  | nil => rfl
  | cons c cs ih =>
    simp only [entryLoop, policyFromComment_eq, directives_cons]
    by_cases ht : c.Token = ""
    · simp [ht, policyOf_empty, ih]
    · by_cases hp : policyOf c.Token nspace = ""
      · simp [ht, hp, ih]
      · simp [ht, hp, ih, List.getLast?_cons]

theorem policyFromLineBlockLoop_eq (nspace : String) (cs : List Comment) :
    policyFromLineBlockLoop nspace cs = ((directives nspace cs).head?.getD "", none) := by
  induction cs with
  | nil => rfl
  | cons c cs ih =>
    simp only [policyFromLineBlockLoop, policyFromComment_eq, directives_cons]
    by_cases ht : c.Token = ""
    · simp [ht, policyOf_empty, ih]
    · by_cases hp : policyOf c.Token nspace = ""
      · simp [ht, hp, ih]
      · simp [ht, hp]

theorem policyFromLineBlock_eq (lb : LineBlock) (nspace : String) :
    policyFromLineBlock lb nspace = ((directives nspace lb.comments).head?.getD "", none) :=
  policyFromLineBlockLoop_eq _ _

theorem moduleLoop_total (nspace : String) (cs : List Comment) (cur : String) :
    ∃ d, moduleLoop nspace cs cur = .next d := by
  induction cs generalizing cur with
  | nil => exact ⟨cur, rfl⟩
  | cons c cs ih =>
    simp only [moduleLoop, policyFromComment_eq]
    by_cases ht : c.Token = ""
    · simpa [ht] using ih cur
    · simpa [ht] using ih _

theorem moduleLoop_of_tokens_empty (nspace : String) (cs : List Comment) (cur : String)
    (h : ∀ c ∈ cs, c.Token = "") : moduleLoop nspace cs cur = .next cur := by
  induction cs with
  | nil => rfl
  | cons c cs ih =>
    have hc : c.Token = "" := h c (List.mem_cons_self _ _)
    simp only [moduleLoop, hc]
    simpa using ih (fun d hd => h d (List.mem_cons_of_mem _ hd))

theorem goLoop_eq_none_iff (nspace : String) (cs : List Comment) :
    goLoop nspace cs = none ↔ ∀ c ∈ cs, c.Token = "" := by
  induction cs with
  | nil => simp [goLoop]
  | cons c cs ih =>
    simp only [goLoop, policyFromComment_eq]
    by_cases ht : c.Token = ""
    · simp [ht, ih]
    · simp [ht]

theorem goLoop_eq_some (nspace : String) (cs : List Comment) (c : Comment) (hc : c ∈ cs)
    (ht : c.Token ≠ "") : ∃ pol, goLoop nspace cs = some (.invalidPosition pol) := by
  induction cs with
  | nil => cases hc
  | cons d ds ih =>
    simp only [goLoop, policyFromComment_eq]
    by_cases hd : d.Token = ""
    · have : c ∈ ds := by
        rcases List.mem_cons.mp hc with h | h
        · subst h; exact absurd hd ht
        · exact h
      simpa [hd] using ih this
    · simp [hd]

/-! ## Lemmas: the result map -/

theorem mapGet_mapDelete (m : PolicyMap) (k k' : String) :
    mapGet (mapDelete m k) k' = if k' = k then none else mapGet m k' := by
  induction m with
  | nil => simp [mapGet, mapDelete]
  | cons kv m ih =>
    obtain ⟨a, b⟩ := kv
    simp only [mapGet, mapDelete] at ih ⊢
    by_cases hak : a = k
    · have h1 : (a != k) = false := by simpa using hak
      rw [List.filter_cons, if_neg (by simp [hak]), ih]
      by_cases hk : k' = k
      · simp [hk]
      · have h2 : (k' == a) = false := by simpa [hak] using hk
        simp [hk, List.lookup_cons, h2]
    · have h1 : (a != k) = true := by simpa using hak
      rw [List.filter_cons, if_pos (by simp [hak]), List.lookup_cons, List.lookup_cons, ih]
      by_cases hka : k' = a
      · have h2 : (k' == a) = true := by simpa using hka
        have hk : k' ≠ k := by rw [hka]; exact hak
        simp [h2, hk]
      · have h2 : (k' == a) = false := by simpa using hka
        simp [h2]

theorem mapGet_mapSet (m : PolicyMap) (k v k' : String) :
    mapGet (mapSet m k v) k' = if k' = k then some v else mapGet m k' := by
  have h := mapGet_mapDelete m k k'
  simp only [mapGet, mapSet] at h ⊢
  by_cases hk : k' = k
  · subst hk; simp
  · have h2 : (k' == k) = false := by simpa using hk
    simpa [List.lookup_cons, h2, hk] using h

theorem mem_mapDelete {m : PolicyMap} {k a b : String} (h : (a, b) ∈ mapDelete m k) :
    (a, b) ∈ m ∧ a ≠ k := by
  simpa [mapDelete] using h

theorem mem_mapSet {m : PolicyMap} {k v a b : String} (h : (a, b) ∈ mapSet m k v) :
    (a = k ∧ b = v) ∨ ((a, b) ∈ m ∧ a ≠ k) := by
  simp only [mapSet, List.mem_cons] at h
  rcases h with h | h
  · left; simpa using h
  · right; exact mem_mapDelete h

theorem mem_of_mapGet {m : PolicyMap} {k v : String} (h : mapGet m k = some v) :
    (k, v) ∈ m := by
  induction m with
  | nil => simp [mapGet] at h
  | cons kv m ih =>
    obtain ⟨a, b⟩ := kv
    simp only [mapGet, List.lookup_cons] at h ih
    by_cases hk : k = a
    · subst hk; simp at h; simp [h]
    · have h2 : (k == a) = false := by simpa using hk
      rw [h2] at h
      exact List.mem_cons_of_mem _ (ih h)

/-- The content of the map for a key after the update that ends the body of
the requirement loop. -/
theorem mapGet_storePolicy (nilPolicy : String) (res : PolicyMap) (path pol k : String) :
    mapGet (storePolicy nilPolicy res path pol) k =
      if k = path then (if pol = nilPolicy ∨ pol = "" then none else some pol)
      else mapGet res k := by
  unfold storePolicy
  by_cases h1 : pol = nilPolicy
  · simp [h1, mapGet_mapDelete]
  · by_cases h2 : pol = ""
    · simp [h1, h2, mapGet_mapDelete]
    · simp [h1, h2, mapGet_mapSet]

theorem mem_storePolicy {nilPolicy : String} {res : PolicyMap} {path pol a b : String}
    (h : (a, b) ∈ storePolicy nilPolicy res path pol) :
    (a = path ∧ b = pol ∧ pol ≠ nilPolicy ∧ pol ≠ "") ∨ (a, b) ∈ res := by
  unfold storePolicy at h
  by_cases h1 : pol = nilPolicy
  · simp only [h1, if_true] at h
    exact Or.inr (mem_mapDelete h).1
  · by_cases h2 : pol = ""
    · subst h2
      rw [if_neg h1, if_pos rfl] at h
      exact Or.inr (mem_mapDelete h).1
    · simp only [h1, h2, if_false] at h
      rcases mem_mapSet h with ⟨ha, hb⟩ | ⟨hm, _⟩
      · exact Or.inl ⟨ha, hb, h1, h2⟩
      · exact Or.inr hm

/-! ## Lemmas: the policy an entry resolves to -/

theorem ne_empty_of_mem_directives {nspace : String} {cs : List Comment} {p : String}
    (h : p ∈ directives nspace cs) : p ≠ "" := by
  simp only [directives, List.mem_filter] at h
  simpa using h.2

theorem head_directives_ne_empty {nspace : String} {cs : List Comment} {p : String}
    (h : (directives nspace cs).head? = some p) : p ≠ "" :=
  ne_empty_of_mem_directives (List.mem_of_mem_head? h)

theorem last_directives_ne_empty {nspace : String} {cs : List Comment} {p : String}
    (h : (directives nspace cs).getLast? = some p) : p ≠ "" :=
  ne_empty_of_mem_directives (List.mem_of_getLast?_eq_some h)

/-- The block-level part never returns an error: it fails at run time when the
entry is marked `InBlock` and the file has no syntax, and otherwise goes on
with the first non-empty directive of the enclosing block, if any. -/
theorem blockPolicy_eq (mod : File) (nspace : String) (syn : Line) (pol : String) :
    blockPolicy mod nspace syn pol =
      if syn.InBlock then
        match mod.Syntax with
        | none => .panic
        | some fs =>
          match findLineBlock fs.Stmt syn with
          | none => .next pol
          | some lb => .next ((directives nspace lb.comments).head?.getD pol)
      else .next pol := by
  unfold blockPolicy
  by_cases hb : syn.InBlock = true
  · simp only [hb, if_true]
    cases mod.Syntax with
    | none => rfl
    | some fs =>
      simp only
      cases findLineBlock fs.Stmt syn with
      | none => rfl
      | some lb =>
        simp only [policyFromLineBlock_eq]
        cases hh : (directives nspace lb.comments).head? with
        | none => simp
        | some p => simp [head_directives_ne_empty hh]
  · simp [hb]

theorem blockPolicy_ne_fail (mod : File) (nspace : String) (syn : Line) (pol : String)
    (e : ParseError) : blockPolicy mod nspace syn pol ≠ .fail e := by
  rw [blockPolicy_eq]
  by_cases hb : syn.InBlock = true
  · simp only [hb, if_true]
    cases mod.Syntax with
    | none => simp
    | some fs =>
      simp only
      cases findLineBlock fs.Stmt syn <;> simp
  · simp [hb]

/-- The resolved policy in terms of the block-level part: the last non-empty
directive of the entry if it has one, else the block-level policy, and the
default when that is empty. -/
theorem resolvePolicy_eq (mod : File) (nspace cur : String) (syn : Line) :
    resolvePolicy mod nspace cur syn =
      match blockPolicy mod nspace syn cur with
      | .panic => .panic
      | .fail e => .fail e
      | .next pol =>
        .next (if (directives nspace syn.comments).getLast?.getD pol = "" then cur
               else (directives nspace syn.comments).getLast?.getD pol) := by
  unfold resolvePolicy
  cases blockPolicy mod nspace syn cur with
  | panic => rfl
  | fail e => rfl
  | next pol => simp only [entryLoop_eq]; rfl

theorem resolvePolicy_ne_fail (mod : File) (nspace cur : String) (syn : Line)
    (e : ParseError) : resolvePolicy mod nspace cur syn ≠ .fail e := by
  rw [resolvePolicy_eq]
  cases h : blockPolicy mod nspace syn cur with
  | panic => simp
  | fail e' => exact absurd h (blockPolicy_ne_fail _ _ _ _ _)
  | next pol => simp

/-- An entry with a non-empty directive of its own resolves to the last of
them, whatever the default and the block. -/
theorem resolvePolicy_of_entry {mod : File} {nspace cur : String} {syn : Line} {p q : String}
    (hd : (directives nspace syn.comments).getLast? = some p)
    (h : resolvePolicy mod nspace cur syn = .next q) : q = p := by
  rw [resolvePolicy_eq] at h
  cases hb : blockPolicy mod nspace syn cur with
  | panic => simp [hb] at h
  | fail e => simp [hb] at h
  | next pol =>
    simp only [hb, hd, Option.getD_some, if_neg (last_directives_ne_empty hd)] at h
    exact (Step.next.inj h).symm

/-- An entry without a directive of its own, in a block that has one, resolves
to the first directive of the block. -/
theorem resolvePolicy_of_block {mod : File} {nspace cur : String} {syn : Line}
    {fs : FileSyntax} {lb : LineBlock} {p : String}
    (hin : syn.InBlock = true) (hfs : mod.Syntax = some fs)
    (hlb : findLineBlock fs.Stmt syn = some lb)
    (hp : (directives nspace lb.comments).head? = some p)
    (hown : directives nspace syn.comments = []) :
    resolvePolicy mod nspace cur syn = .next p := by
  rw [resolvePolicy_eq, blockPolicy_eq]
  simp [hin, hfs, hlb, hp, hown, head_directives_ne_empty hp]

/-- An entry without a directive of its own and without a block-level one
resolves to the default. -/
theorem resolvePolicy_of_default {mod : File} {nspace cur : String} {syn : Line} {q : String}
    (hown : directives nspace syn.comments = [])
    (hblock : syn.InBlock = true → ∀ fs lb, mod.Syntax = some fs →
      findLineBlock fs.Stmt syn = some lb → directives nspace lb.comments = [])
    (h : resolvePolicy mod nspace cur syn = .next q) : q = cur := by
  rw [resolvePolicy_eq, blockPolicy_eq] at h
  by_cases hb : syn.InBlock = true
  · simp only [hb, if_true] at h
    cases hfs : mod.Syntax with
    | none => simp [hfs] at h
    | some fs =>
      simp only [hfs] at h
      cases hlb : findLineBlock fs.Stmt syn with
      | none => simpa [hlb, hown, eq_comm] using h
      | some lb =>
        have := hblock hb fs lb hfs hlb
        simpa [hlb, hown, this, eq_comm] using h
  · simpa [hb, hown, eq_comm] using h

/-! ## Lemmas: the requirement loop -/

theorem requireLoop_cons_none {mod : File} {nspace nilPolicy cur : String} {f : Require}
    (fs : List Require) (res : PolicyMap) (hs : f.Syntax = none) :
    requireLoop mod nspace nilPolicy cur (f :: fs) res =
      requireLoop mod nspace nilPolicy cur fs res := by
  simp [requireLoop, hs]

theorem requireLoop_cons_some {mod : File} {nspace nilPolicy cur : String} {f : Require}
    {syn : Line} (fs : List Require) (res : PolicyMap) (hs : f.Syntax = some syn) :
    requireLoop mod nspace nilPolicy cur (f :: fs) res =
      match resolvePolicy mod nspace cur syn with
      | .panic => .panic
      | .fail e => .fail e
      | .next pol =>
        requireLoop mod nspace nilPolicy cur fs (storePolicy nilPolicy res f.Mod.Path pol) := by
  simp [requireLoop, hs]

/-- The loop over a concatenation runs the loop over the first part and then,
from the map it leaves, over the second. -/
theorem requireLoop_append (mod : File) (nspace nilPolicy cur : String)
    (pre post : List Require) (res : PolicyMap) :
    requireLoop mod nspace nilPolicy cur (pre ++ post) res =
      match requireLoop mod nspace nilPolicy cur pre res with
      | .panic => .panic
      | .fail e => .fail e
      | .next r => requireLoop mod nspace nilPolicy cur post r := by
  induction pre generalizing res with
  | nil => rfl
  | cons f fs ih =>
    cases hs : f.Syntax with
    | none => simpa [requireLoop, hs] using ih res
    | some syn =>
      simp only [List.cons_append, requireLoop_cons_some _ _ hs]
      cases resolvePolicy mod nspace cur syn with
      | panic => rfl
      | fail e => rfl
      | next pol => exact ih _

/-- A successful run over `pre ++ r :: post`, where `r` has syntax, splits
into a run over `pre`, the resolution and the update for `r`, and a run over
`post`. -/
theorem requireLoop_split {mod : File} {nspace nilPolicy cur : String}
    {pre post : List Require} {r : Require} {syn : Line} {res m : PolicyMap}
    (hs : r.Syntax = some syn)
    (h : requireLoop mod nspace nilPolicy cur (pre ++ r :: post) res = .next m) :
    ∃ res1 pol, requireLoop mod nspace nilPolicy cur pre res = .next res1 ∧
      resolvePolicy mod nspace cur syn = .next pol ∧
      requireLoop mod nspace nilPolicy cur post
        (storePolicy nilPolicy res1 r.Mod.Path pol) = .next m := by
  rw [requireLoop_append] at h
  cases h1 : requireLoop mod nspace nilPolicy cur pre res with
  | panic => simp [h1] at h
  | fail e => simp [h1] at h
  | next res1 =>
    simp only [h1, requireLoop_cons_some _ _ hs] at h
    cases h2 : resolvePolicy mod nspace cur syn with
    | panic => simp [h2] at h
    | fail e => simp [h2] at h
    | next pol =>
      simp only [h2] at h
      exact ⟨res1, pol, rfl, rfl, h⟩

/-- Entries for other paths leave the content of the map for a path as it
was. -/
theorem requireLoop_mapGet_of_ne {mod : File} {nspace nilPolicy cur : String}
    {rs : List Require} {res m : PolicyMap} {d : String}
    (hd : ∀ r ∈ rs, r.Mod.Path ≠ d)
    (h : requireLoop mod nspace nilPolicy cur rs res = .next m) :
    mapGet m d = mapGet res d := by
  induction rs generalizing res with
  | nil => simp only [requireLoop] at h; rw [Step.next.inj h]
  | cons f fs ih =>
    have hf : f.Mod.Path ≠ d := hd f (List.mem_cons_self _ _)
    have hfs : ∀ r ∈ fs, r.Mod.Path ≠ d := fun r hr => hd r (List.mem_cons_of_mem _ hr)
    cases hs : f.Syntax with
    | none =>
      rw [requireLoop_cons_none _ _ hs] at h
      exact ih hfs h
    | some syn =>
      rw [requireLoop_cons_some _ _ hs] at h
      cases h2 : resolvePolicy mod nspace cur syn with
      | panic => simp [h2] at h
      | fail e => simp [h2] at h
      | next pol =>
        simp only [h2] at h
        rw [ih hfs h, mapGet_storePolicy, if_neg (Ne.symm hf)]

/-- The content of the map for the path of an entry with syntax that no later
entry shares. -/
theorem requireLoop_mapGet_last {mod : File} {nspace nilPolicy cur : String}
    {pre post : List Require} {r : Require} {syn : Line} {res m : PolicyMap}
    (hs : r.Syntax = some syn) (hlast : ∀ r' ∈ post, r'.Mod.Path ≠ r.Mod.Path)
    (h : requireLoop mod nspace nilPolicy cur (pre ++ r :: post) res = .next m) :
    ∃ pol, resolvePolicy mod nspace cur syn = .next pol ∧
      mapGet m r.Mod.Path = if pol = nilPolicy ∨ pol = "" then none else some pol := by
  obtain ⟨res1, pol, _, h2, h3⟩ := requireLoop_split hs h
  refine ⟨pol, h2, ?_⟩
  rw [requireLoop_mapGet_of_ne hlast h3, mapGet_storePolicy, if_pos rfl]

/-- Every pair of the map the loop leaves was in the map it started from or
was stored for an entry, and then its value is neither `nilPolicy` nor
empty. -/
theorem requireLoop_mem {mod : File} {nspace nilPolicy cur : String}
    {rs : List Require} {res m : PolicyMap} {a b : String}
    (h : requireLoop mod nspace nilPolicy cur rs res = .next m) (hm : (a, b) ∈ m) :
    (a, b) ∈ res ∨ ((∃ r ∈ rs, r.Mod.Path = a ∧ r.Syntax ≠ none) ∧ b ≠ nilPolicy ∧ b ≠ "") := by
  induction rs generalizing res with
  | nil => simp only [requireLoop] at h; rw [Step.next.inj h]; exact Or.inl hm
  | cons f fs ih =>
    cases hs : f.Syntax with
    | none =>
      rw [requireLoop_cons_none _ _ hs] at h
      rcases ih h with h1 | ⟨⟨r, hr, hp⟩, hb⟩
      · exact Or.inl h1
      · exact Or.inr ⟨⟨r, List.mem_cons_of_mem _ hr, hp⟩, hb⟩
    | some syn =>
      rw [requireLoop_cons_some _ _ hs] at h
      cases h2 : resolvePolicy mod nspace cur syn with
      | panic => simp [h2] at h
      | fail e => simp [h2] at h
      | next pol =>
        simp only [h2] at h
        rcases ih h with h1 | ⟨⟨r, hr, hp⟩, hb⟩
        · rcases mem_storePolicy h1 with ⟨ha, hb, hn, he⟩ | h3
          · refine Or.inr ⟨⟨f, List.mem_cons_self _ _, ha.symm, by simp [hs]⟩, ?_, ?_⟩
            · rw [hb]; exact hn
            · rw [hb]; exact he
          · exact Or.inl h3
        · exact Or.inr ⟨⟨r, List.mem_cons_of_mem _ hr, hp⟩, hb⟩

/-- The loop does not return an error. -/
theorem requireLoop_ne_fail (mod : File) (nspace nilPolicy cur : String)
    (rs : List Require) (res : PolicyMap) (e : ParseError) :
    requireLoop mod nspace nilPolicy cur rs res ≠ .fail e := by
  induction rs generalizing res with
  | nil => simp [requireLoop]
  | cons f fs ih =>
    cases hs : f.Syntax with
    | none => rw [requireLoop_cons_none _ _ hs]; exact ih res
    | some syn =>
      rw [requireLoop_cons_some _ _ hs]
      cases h2 : resolvePolicy mod nspace cur syn with
      | panic => simp
      | fail e' => exact absurd h2 (resolvePolicy_ne_fail _ _ _ _ _)
      | next pol => exact ih _

/-- A call of `Parse` returns a map exactly when its three loops run to their
end. -/
theorem Parse_eq_ok_iff (mod : File) (nspace nilPolicy : String) (m : PolicyMap) :
    Parse mod nspace nilPolicy = .returned (some m) none ↔
      ∃ cur, moduleDefault mod nspace nilPolicy = .next cur ∧
        goCheck mod nspace = .next () ∧
        requireLoop mod nspace nilPolicy cur mod.Require [] = .next m := by
  unfold Parse
  cases h1 : moduleDefault mod nspace nilPolicy with
  | panic => simp
  | fail e => simp
  | next cur =>
    cases h2 : goCheck mod nspace with
    | panic => simp
    | fail e => simp
    | next u =>
      cases h3 : requireLoop mod nspace nilPolicy cur mod.Require [] with
      | panic => simp [h3]
      | fail e => simp [h3]
      | next res => simp [h3]

theorem blockPolicy_next_any {mod : File} {nspace : String} {syn : Line} {pol q : String}
    (h : blockPolicy mod nspace syn pol = .next q) (pol' : String) :
    ∃ q', blockPolicy mod nspace syn pol' = .next q' := by
  rw [blockPolicy_eq] at h ⊢
  by_cases hb : syn.InBlock = true
  · simp only [hb, if_true] at h ⊢
    cases hfs : mod.Syntax with
    | none => simp [hfs] at h
    | some fs =>
      simp only
      cases findLineBlock fs.Stmt syn with
      | none => exact ⟨_, rfl⟩
      | some lb => exact ⟨_, rfl⟩
  · simp [hb]

theorem resolvePolicy_next_any {mod : File} {nspace cur : String} {syn : Line} {q : String}
    (h : resolvePolicy mod nspace cur syn = .next q) (cur' : String) :
    ∃ q', resolvePolicy mod nspace cur' syn = .next q' := by
  rw [resolvePolicy_eq] at h
  cases hb : blockPolicy mod nspace syn cur with
  | panic => simp [hb] at h
  | fail e => simp [hb] at h
  | next pol =>
    obtain ⟨q', hq'⟩ := blockPolicy_next_any hb cur'
    rw [resolvePolicy_eq, hq']
    exact ⟨_, rfl⟩

/-- The block found for an entry is the first line block of the list whose
span contains the span of the entry. -/
theorem findLineBlock_of_first {s1 s2 : List Expr} {lb : LineBlock} {line : Line}
    (hfirst : ∀ lb', Expr.lineBlock lb' ∈ s1 → ¬ lb'.encloses line)
    (henc : lb.encloses line) :
    findLineBlock (s1 ++ Expr.lineBlock lb :: s2) line = some lb := by
  induction s1 with
  | nil =>
    have h : line.Start.Line ≥ lb.Start.Line ∧ line.End.Line ≤ lb.RParen.Line := henc
    simp [findLineBlock, h]
  | cons e s1 ih =>
    have ih' := ih (fun lb' h' => hfirst lb' (List.mem_cons_of_mem _ h'))
    cases e with
    | commentBlock b st => simpa [findLineBlock] using ih'
    | line l => simpa [findLineBlock] using ih'
    | lineBlock lb' =>
      have hn : ¬ (line.Start.Line ≥ lb'.Start.Line ∧ line.End.Line ≤ lb'.RParen.Line) :=
        hfirst lb' (List.mem_cons_self _ _)
      simp only [List.cons_append, findLineBlock, if_neg hn]
      exact ih'

theorem carriesDirective_empty (nspace : String) : carriesDirective "" nspace = false := by
  simp [carriesDirective, trimPrefix, hasPrefix, fields, fieldsAux]

theorem moduleDefault_total {mod : File} {mo : Module} {msyn : Line}
    (hm : mod.Module = some mo) (hms : mo.Syntax = some msyn) (nspace nilPolicy : String) :
    ∃ cur, moduleDefault mod nspace nilPolicy = .next cur := by
  simp only [moduleDefault, hm, hms]
  exact moduleLoop_total _ _ _

/-- Every error `Parse` returns is the one of the check of the version
declaration. -/
theorem Parse_error_from_goCheck {mod : File} {nspace nilPolicy : String}
    {res : Option PolicyMap} {e : ParseError}
    (h : Parse mod nspace nilPolicy = .returned res (some e)) :
    res = none ∧ goCheck mod nspace = .fail e := by
  unfold Parse at h
  cases h1 : moduleDefault mod nspace nilPolicy with
  | panic => simp [h1] at h
  | fail e1 =>
    exfalso
    simp only [moduleDefault] at h1
    cases hm : mod.Module with
    | none => simp [hm] at h1
    | some mo =>
      cases hms : mo.Syntax with
      | none => simp [hm, hms] at h1
      | some msyn =>
        obtain ⟨d, hd⟩ := moduleLoop_total nspace (msyn.Before ++ msyn.Suffix) nilPolicy
        simp [hm, hms, hd] at h1
  | next cur =>
    simp only [h1] at h
    cases h2 : goCheck mod nspace with
    | panic => simp [h2] at h
    | fail e2 =>
      simp only [h2, Outcome.returned.injEq] at h
      obtain ⟨hr, he⟩ := h
      exact ⟨hr.symm, by rw [Option.some.inj he]⟩
    | next u =>
      simp only [h2] at h
      cases h3 : requireLoop mod nspace nilPolicy cur mod.Require [] with
      | panic => simp [h3] at h
      | fail e3 => exact absurd h3 (requireLoop_ne_fail _ _ _ _ _ _ _)
      | next m => simp [h3] at h

/-! ## Lemmas: two manifests that differ in entry comments -/

theorem findLineBlock_eq_find (stmts : List Expr) (line : Line) :
    findLineBlock stmts line =
      (lineBlocks stmts).find? (fun lb => decide (lb.encloses line)) := by
  induction stmts with
  | nil => rfl
  | cons e stmts ih =>
    cases e with
    | commentBlock b st => simpa [findLineBlock, lineBlocks] using ih
    | line l => simpa [findLineBlock, lineBlocks] using ih
    | lineBlock lb =>
      simp only [findLineBlock, lineBlocks, List.find?_cons]
      by_cases h : line.Start.Line ≥ lb.Start.Line ∧ line.End.Line ≤ lb.RParen.Line
      · have h' : lb.encloses line := h
        simp [h, h']
      · have h' : ¬ lb.encloses line := h
        simp [h, h', ih]

theorem blockPolicy_congr {mod1 mod2 : File}
    (h : mod1.Syntax.map (fun fs => lineBlocks fs.Stmt) =
      mod2.Syntax.map (fun fs => lineBlocks fs.Stmt))
    (nspace : String) (syn : Line) (pol : String) :
    blockPolicy mod1 nspace syn pol = blockPolicy mod2 nspace syn pol := by
  simp only [blockPolicy]
  cases h1 : mod1.Syntax with
  | none =>
    cases h2 : mod2.Syntax with
    | none => rfl
    | some fs2 => simp [h1, h2] at h
  | some fs1 =>
    cases h2 : mod2.Syntax with
    | none => simp [h1, h2] at h
    | some fs2 =>
      have e : lineBlocks fs1.Stmt = lineBlocks fs2.Stmt := by simpa [h1, h2] using h
      simp only [findLineBlock_eq_find, e]

theorem resolvePolicy_congr {mod1 mod2 : File}
    (h : mod1.Syntax.map (fun fs => lineBlocks fs.Stmt) =
      mod2.Syntax.map (fun fs => lineBlocks fs.Stmt))
    (nspace cur : String) (syn : Line) :
    resolvePolicy mod1 nspace cur syn = resolvePolicy mod2 nspace cur syn := by
  simp only [resolvePolicy, blockPolicy_congr h]

theorem requireLoop_cons_next {mod : File} {nspace nilPolicy cur : String} {f : Require}
    {syn : Line} {fs : List Require} {res m : PolicyMap} (hs : f.Syntax = some syn)
    (h : requireLoop mod nspace nilPolicy cur (f :: fs) res = .next m) :
    ∃ pol, resolvePolicy mod nspace cur syn = .next pol ∧
      requireLoop mod nspace nilPolicy cur fs (storePolicy nilPolicy res f.Mod.Path pol) =
        .next m := by
  rw [requireLoop_cons_some _ _ hs] at h
  cases h2 : resolvePolicy mod nspace cur syn with
  | panic => simp [h2] at h
  | fail e => simp [h2] at h
  | next pol => exact ⟨pol, rfl, by simpa [h2] using h⟩

/-- Two runs of the requirement loop over lists that agree up to the comments
of the entries for other paths than `d` leave maps that agree on `d`. -/
theorem requireLoop_agree {mod1 mod2 : File} {nspace nilPolicy cur d : String}
    (hst : mod1.Syntax.map (fun fs => lineBlocks fs.Stmt) =
      mod2.Syntax.map (fun fs => lineBlocks fs.Stmt))
    {rs1 rs2 : List Require}
    (hrs : List.Forall₂ (fun r1 r2 => r1 = r2 ∨ (r1.Mod.Path ≠ d ∧ r1.sameButComments r2))
      rs1 rs2)
    {res1 res2 m1 m2 : PolicyMap} (hres : mapGet res1 d = mapGet res2 d)
    (h1 : requireLoop mod1 nspace nilPolicy cur rs1 res1 = .next m1)
    (h2 : requireLoop mod2 nspace nilPolicy cur rs2 res2 = .next m2) :
    mapGet m1 d = mapGet m2 d := by
  induction hrs generalizing res1 res2 with
  | nil =>
    simp only [requireLoop] at h1 h2
    rw [← Step.next.inj h1, ← Step.next.inj h2]
    exact hres
  | @cons r1 r2 l1 l2 hr _ ih =>
    rcases hr with heq | ⟨hne, hmod, _, hsyn⟩
    · subst heq
      cases hs : r1.Syntax with
      | none =>
        rw [requireLoop_cons_none _ _ hs] at h1 h2
        exact ih hres h1 h2
      | some syn =>
        obtain ⟨p1, hp1, hl1⟩ := requireLoop_cons_next hs h1
        obtain ⟨p2, hp2, hl2⟩ := requireLoop_cons_next hs h2
        rw [resolvePolicy_congr hst, hp2] at hp1
        have hp : p2 = p1 := Step.next.inj hp1
        subst hp
        refine ih ?_ hl1 hl2
        simp only [mapGet_storePolicy, hres]
    · have hne2 : r2.Mod.Path ≠ d := by rw [← hmod]; exact hne
      cases hs1 : r1.Syntax with
      | none =>
        cases hs2 : r2.Syntax with
        | none =>
          rw [requireLoop_cons_none _ _ hs1] at h1
          rw [requireLoop_cons_none _ _ hs2] at h2
          exact ih hres h1 h2
        | some s2 => simp [hs1, hs2] at hsyn
      | some s1 =>
        cases hs2 : r2.Syntax with
        | none => simp [hs1, hs2] at hsyn
        | some s2 =>
          obtain ⟨p1, _, hl1⟩ := requireLoop_cons_next hs1 h1
          obtain ⟨p2, _, hl2⟩ := requireLoop_cons_next hs2 h2
          refine ih ?_ hl1 hl2
          simp only [mapGet_storePolicy, if_neg (Ne.symm hne), if_neg (Ne.symm hne2), hres]

/-- A module line whose comments carry no non-empty directive leaves the
default as it was or empty. -/
theorem moduleLoop_of_no_directive {nspace : String} {cs : List Comment} {cur c : String}
    (hd : directives nspace cs = []) (h : moduleLoop nspace cs cur = .next c) :
    c = cur ∨ c = "" := by
  induction cs generalizing cur with
  | nil => simp only [moduleLoop] at h; exact Or.inl (Step.next.inj h).symm
  | cons a cs ih =>
    rw [directives_cons] at hd
    by_cases hp : policyOf a.Token nspace = ""
    · rw [if_pos hp] at hd
      simp only [moduleLoop, policyFromComment_eq, hp] at h
      by_cases ht : a.Token = ""
      · simp only [ht, ne_eq, not_true_eq_false, if_false] at h
        exact ih hd h
      · simp only [ht, ne_eq, not_false_eq_true, if_true] at h
        rcases ih hd h with h' | h'
        · exact Or.inr h'
        · exact Or.inr h'
    · rw [if_neg hp] at hd
      cases hd

theorem goLoop_some_invalidPosition {nspace : String} {cs : List Comment} {e : ParseError}
    (h : goLoop nspace cs = some e) : ∃ pol, e = .invalidPosition pol := by
  induction cs with
  | nil => simp [goLoop] at h
  | cons c cs ih =>
    simp only [goLoop, policyFromComment_eq] at h
    by_cases ht : c.Token = ""
    · simp only [ht, ne_eq, not_true_eq_false, if_false] at h
      exact ih h
    · simp only [ht, ne_eq, not_false_eq_true, if_true] at h
      exact ⟨_, (Option.some.inj h).symm⟩

theorem goCheck_fail_invalidPosition {mod : File} {nspace : String} {e : ParseError}
    (h : goCheck mod nspace = .fail e) : ∃ pol, e = .invalidPosition pol := by
  simp only [goCheck] at h
  cases hg : mod.Go with
  | none => simp [hg] at h
  | some g =>
    cases hgs : g.Syntax with
    | none => simp [hg, hgs] at h
    | some gsyn =>
      simp only [hg, hgs] at h
      cases hl : goLoop nspace (gsyn.Before ++ gsyn.Suffix) with
      | none => simp [hl] at h
      | some e' =>
        simp only [hl] at h
        obtain ⟨pol, hpol⟩ := goLoop_some_invalidPosition hl
        exact ⟨pol, by rw [← Step.fail.inj h, hpol]⟩

theorem policyFromCommentLoop_of_no_match (pre : String) (fs : List String)
    (h : ∀ f ∈ fs, hasPrefix (trimPrefix f "//") pre = false) :
    policyFromCommentLoop pre fs = ("", none) := by
  induction fs with
  | nil => rfl
  | cons f fs ih =>
    simp only [policyFromCommentLoop, h f (List.mem_cons_self _ _)]
    simpa using ih (fun g hg => h g (List.mem_cons_of_mem _ hg))

theorem findLineBlock_some_split {stmts : List Expr} {line : Line} {lb : LineBlock}
    (h : findLineBlock stmts line = some lb) :
    ∃ s1 s2, stmts = s1 ++ Expr.lineBlock lb :: s2 ∧
      (∀ lb', Expr.lineBlock lb' ∈ s1 → ¬ lb'.encloses line) ∧ lb.encloses line := by
  induction stmts with
  | nil => simp [findLineBlock] at h
  | cons e stmts ih =>
    cases e with
    | commentBlock b st =>
      simp only [findLineBlock] at h
      obtain ⟨s1, s2, hs, hf, he⟩ := ih h
      refine ⟨Expr.commentBlock b st :: s1, s2, by rw [hs]; rfl, ?_, he⟩
      intro lb' hm
      rcases List.mem_cons.mp hm with h' | h'
      · cases h'
      · exact hf lb' h'
    | line l =>
      simp only [findLineBlock] at h
      obtain ⟨s1, s2, hs, hf, he⟩ := ih h
      refine ⟨Expr.line l :: s1, s2, by rw [hs]; rfl, ?_, he⟩
      intro lb' hm
      rcases List.mem_cons.mp hm with h' | h'
      · cases h'
      · exact hf lb' h'
    | lineBlock lb0 =>
      simp only [findLineBlock] at h
      by_cases hc : line.Start.Line ≥ lb0.Start.Line ∧ line.End.Line ≤ lb0.RParen.Line
      · rw [if_pos hc] at h
        have e : lb0 = lb := Option.some.inj h
        subst e
        exact ⟨[], stmts, rfl, by simp, hc⟩
      · rw [if_neg hc] at h
        obtain ⟨s1, s2, hs, hf, he⟩ := ih h
        refine ⟨Expr.lineBlock lb0 :: s1, s2, by rw [hs]; rfl, ?_, he⟩
        intro lb' hm
        rcases List.mem_cons.mp hm with h' | h'
        · cases h'; exact hc
        · exact hf lb' h'

theorem findLineBlock_eq_none_iff (stmts : List Expr) (line : Line) :
    findLineBlock stmts line = none ↔
      ∀ lb, Expr.lineBlock lb ∈ stmts → ¬ lb.encloses line := by
  induction stmts with
  | nil => simp [findLineBlock]
  | cons e stmts ih =>
    cases e with
    | commentBlock b st => simpa [findLineBlock] using ih
    | line l => simpa [findLineBlock] using ih
    | lineBlock lb0 =>
      simp only [findLineBlock]
      by_cases hc : line.Start.Line ≥ lb0.Start.Line ∧ line.End.Line ≤ lb0.RParen.Line
      · rw [if_pos hc]
        constructor
        · intro h; cases h
        · intro h; exact absurd hc (h lb0 (List.mem_cons_self _ _))
      · rw [if_neg hc, ih]
        constructor
        · intro h lb hm
          rcases List.mem_cons.mp hm with h' | h'
          · cases h'; exact hc
          · exact h lb h'
        · intro h lb hm
          exact h lb (List.mem_cons_of_mem _ hm)

theorem fieldsAux_within (l cur : List Char) :
    ∀ f ∈ fieldsAux l cur, f <:+: cur.reverse ++ l := by
  induction l generalizing cur with
  | nil =>
    intro f hf
    simp only [fieldsAux] at hf
    by_cases hc : cur.isEmpty = true
    · simp [hc] at hf
    · simp only [hc] at hf
      have : f = cur.reverse := by simpa using hf
      rw [this]; simp
  | cons c cs ih =>
    intro f hf
    simp only [fieldsAux] at hf
    by_cases hs : isSpace c = true
    · simp only [hs, if_true] at hf
      have hcs : ∀ g ∈ fieldsAux cs [], g <:+: cur.reverse ++ c :: cs := by
        intro g hg
        have h1 : g <:+: cs := by simpa using ih [] g hg
        refine h1.trans ?_
        exact (List.suffix_append (cur.reverse ++ [c]) cs).isInfix.trans (by simp)
      by_cases hc : cur.isEmpty = true
      · simp only [hc, if_true] at hf
        exact hcs f hf
      · simp only [hc] at hf
        rcases List.mem_cons.mp hf with h | h
        · rw [h]; exact (List.prefix_append _ _).isInfix
        · exact hcs f h
    · simp only [hs] at hf
      have := ih (c :: cur) f hf
      simpa using this

theorem field_within {s f : String} (h : f ∈ fields s) : f.data <:+: s.data := by
  simp only [fields, List.mem_map] at h
  obtain ⟨l, hl, rfl⟩ := h
  simpa using fieldsAux_within s.data [] l hl

theorem trimPrefix_suffix (s pre : String) : (trimPrefix s pre).data <:+ s.data := by
  unfold trimPrefix
  split
  · exact List.drop_suffix _ _
  · exact List.suffix_refl _

theorem data_of_hasPrefix {s pre : String} (h : hasPrefix s pre = true) :
    s.data = pre.data ++ (trimPrefix s pre).data := by
  have hp : pre.data <+: s.data := by simpa [hasPrefix] using h
  obtain ⟨t, ht⟩ := hp
  simp only [trimPrefix, h, if_true]
  rw [← ht]
  simp

theorem policyFromCommentLoop_origin (pre : String) (fs : List String) :
    (∀ f ∈ fs, hasPrefix (trimPrefix f "//") pre = false) ∨
      ∃ f ∈ fs, (trimPrefix f "//").data = pre.data ++ (policyFromCommentLoop pre fs).1.data := by
  induction fs with
  | nil => left; simp
  | cons f fs ih =>
    simp only [policyFromCommentLoop]
    cases h : hasPrefix (trimPrefix f "//") pre with
    | true =>
      right
      exact ⟨f, List.mem_cons_self _ _, by simpa using data_of_hasPrefix h⟩
    | false =>
      rcases ih with h' | ⟨g, hg, hd⟩
      · left
        intro g hg
        rcases List.mem_cons.mp hg with e | e
        · rw [e]; exact h
        · exact h' g e
      · right
        exact ⟨g, List.mem_cons_of_mem _ hg, by simpa using hd⟩

theorem policyOf_occurs {token nspace : String} (h : policyOf token nspace ≠ "") :
    occursIn (nspace ++ ":" ++ policyOf token nspace) token := by
  rcases policyFromCommentLoop_origin (nspace ++ ":") (fields (trimPrefix token "//")) with
    h' | ⟨f, hf, hd⟩
  · exfalso
    apply h
    simp only [policyOf, policyFromComment, policyFromCommentLoop_of_no_match _ _ h']
  · have h1 : (trimPrefix f "//").data <:+: token.data :=
      (trimPrefix_suffix f "//").isInfix.trans
        ((field_within hf).trans (trimPrefix_suffix token "//").isInfix)
    rw [hd] at h1
    simpa [occursIn, policyOf, policyFromComment, String.data_append] using h1

theorem resolvePolicy_of_standalone (mod : File) (nspace cur : String) (syn : Line)
    (hin : syn.InBlock = false) :
    resolvePolicy mod nspace cur syn =
      .next ((directives nspace syn.comments).getLast?.getD cur) := by
  rw [resolvePolicy_eq, blockPolicy_eq]
  simp only [hin, Bool.false_eq_true, if_false]
  cases hd : (directives nspace syn.comments).getLast? with
  | none => simp
  | some p => simp [last_directives_ne_empty hd]

theorem fields_plain (nspace p : String) (hn : noSpace nspace = true)
    (hp : noSpace p = true) :
    fields (trimPrefix ("// " ++ nspace ++ ":" ++ p) "//") = [nspace ++ ":" ++ p] := by
  have e : ("// " ++ nspace ++ ":" ++ p).data =
      '/' :: '/' :: ' ' :: (nspace ++ ":" ++ p).data := by
    simp [String.data_append]
  rw [trimPrefix_slashes_cons _ _ e]
  simp only [fields]
  rw [fieldsAux_space _ _ (by decide),
    fieldsAux_last _ (word_ne_nil nspace p) (word_noSpace nspace p hn hp)]
  rfl

theorem carriesDirective_plain (nspace p : String) (hn : noSpace nspace = true)
    (hp : noSpace p = true) (hs : hasPrefix nspace "//" = false) :
    carriesDirective ("// " ++ nspace ++ ":" ++ p) nspace = true := by
  have h1 : hasPrefix (nspace ++ ":" ++ p) (nspace ++ ":") = true := by
    simp [hasPrefix, String.data_append]
  simp [carriesDirective, fields_plain nspace p hn hp, trimPrefix_slashes_word nspace p hs, h1]

theorem directives_skip (nspace : String) (cs1 cs2 : List Comment) (c : Comment)
    (h : policyOf c.Token nspace = "") :
    directives nspace (cs1 ++ c :: cs2) = directives nspace (cs1 ++ cs2) := by
  rw [directives_append, directives_append, directives_cons, if_pos h]

theorem fieldsAux_noSpace (l cur : List Char) (hcur : ∀ c ∈ cur, isSpace c = false) :
    ∀ f ∈ fieldsAux l cur, ∀ c ∈ f, isSpace c = false := by
  induction l generalizing cur with
  | nil =>
    intro f hf c hc
    simp only [fieldsAux] at hf
    by_cases he : cur.isEmpty = true
    · simp [he] at hf
    · simp only [he] at hf
      have : f = cur.reverse := by simpa using hf
      rw [this] at hc
      exact hcur c (List.mem_reverse.mp hc)
  | cons a as ih =>
    intro f hf c hc
    simp only [fieldsAux] at hf
    by_cases hs : isSpace a = true
    · simp only [hs, if_true] at hf
      by_cases he : cur.isEmpty = true
      · simp only [he, if_true] at hf
        exact ih [] (by simp) f hf c hc
      · simp only [he] at hf
        rcases List.mem_cons.mp hf with h | h
        · rw [h] at hc
          exact hcur c (List.mem_reverse.mp hc)
        · exact ih [] (by simp) f h c hc
    · simp only [hs] at hf
      refine ih (a :: cur) ?_ f hf c hc
      intro d hd
      rcases List.mem_cons.mp hd with h | h
      · rw [h]; simpa using hs
      · exact hcur d h

theorem noSpace_of_suffix {s t : String} (h : s.data <:+ t.data) (ht : noSpace t = true) :
    noSpace s = true := by
  simp only [noSpace, List.all_eq_true] at ht ⊢
  intro c hc
  exact ht c (h.subset hc)

theorem noSpace_field {s f : String} (h : f ∈ fields s) : noSpace f = true := by
  simp only [fields, List.mem_map] at h
  obtain ⟨l, hl, rfl⟩ := h
  simp only [noSpace, List.all_eq_true, Bool.not_eq_true']
  exact fieldsAux_noSpace s.data [] (by simp) l hl

theorem policyFromCommentLoop_noSpace (pre : String) (fs : List String)
    (h : ∀ f ∈ fs, noSpace f = true) : noSpace (policyFromCommentLoop pre fs).1 = true := by
  induction fs with
  | nil => rfl
  | cons f fs ih =>
    simp only [policyFromCommentLoop]
    split
    · exact noSpace_of_suffix (trimPrefix_suffix _ _)
        (noSpace_of_suffix (trimPrefix_suffix _ _) (h f (List.mem_cons_self _ _)))
    · exact ih (fun g hg => h g (List.mem_cons_of_mem _ hg))

theorem policyOf_noSpace (token nspace : String) : noSpace (policyOf token nspace) = true :=
  policyFromCommentLoop_noSpace _ _ (fun _ hf => noSpace_field hf)

theorem noSpace_of_mem_directives {nspace : String} {cs : List Comment} {p : String}
    (h : p ∈ directives nspace cs) : noSpace p = true := by
  simp only [directives, List.mem_filter, List.mem_map] at h
  obtain ⟨⟨c, _, rfl⟩, _⟩ := h
  exact policyOf_noSpace _ _

theorem moduleLoop_origin {nspace : String} {cs : List Comment} {cur c : String}
    (h : moduleLoop nspace cs cur = .next c) : c = cur ∨ noSpace c = true := by
  induction cs generalizing cur with
  | nil => simp only [moduleLoop] at h; exact Or.inl (Step.next.inj h).symm
  | cons a cs ih =>
    simp only [moduleLoop, policyFromComment_eq] at h
    by_cases ht : a.Token = ""
    · simp only [ht, ne_eq, not_true_eq_false, if_false] at h
      exact ih h
    · simp only [ht, ne_eq, not_false_eq_true, if_true] at h
      rcases ih h with h' | h'
      · right; rw [h']; exact policyOf_noSpace _ _
      · exact Or.inr h'

theorem resolvePolicy_origin {mod : File} {nspace cur : String} {syn : Line} {pol : String}
    (h : resolvePolicy mod nspace cur syn = .next pol) : pol = cur ∨ noSpace pol = true := by
  rw [resolvePolicy_eq, blockPolicy_eq] at h
  have key : ∀ b : String, (b = cur ∨ noSpace b = true) →
      Step.next (if (directives nspace syn.comments).getLast?.getD b = "" then cur
        else (directives nspace syn.comments).getLast?.getD b) = Step.next pol →
      pol = cur ∨ noSpace pol = true := by
    intro b hb hq
    have hq' := Step.next.inj hq
    cases hd : (directives nspace syn.comments).getLast? with
    | none =>
      simp only [hd, Option.getD_none] at hq'
      by_cases hbe : b = ""
      · rw [if_pos hbe] at hq'; exact Or.inl hq'.symm
      · rw [if_neg hbe] at hq'; rw [← hq']; exact hb
    | some p =>
      simp only [hd, Option.getD_some, if_neg (last_directives_ne_empty hd)] at hq'
      right; rw [← hq']
      exact noSpace_of_mem_directives (List.mem_of_getLast?_eq_some hd)
  by_cases hb : syn.InBlock = true
  · simp only [hb, if_true] at h
    cases hfs : mod.Syntax with
    | none => simp [hfs] at h
    | some fs =>
      simp only [hfs] at h
      cases hlb : findLineBlock fs.Stmt syn with
      | none =>
        simp only [hlb] at h
        exact key cur (Or.inl rfl) h
      | some lb =>
        simp only [hlb] at h
        refine key _ ?_ h
        cases hh : (directives nspace lb.comments).head? with
        | none => left; rfl
        | some p => right; exact noSpace_of_mem_directives (List.mem_of_mem_head? hh)
  · simp only [hb] at h
    exact key cur (Or.inl rfl) h

theorem requireLoop_noSpace {mod : File} {nspace nilPolicy cur : String}
    (hcur : cur = nilPolicy ∨ noSpace cur = true)
    {rs : List Require} {res m : PolicyMap} {a b : String}
    (h : requireLoop mod nspace nilPolicy cur rs res = .next m) (hm : (a, b) ∈ m) :
    (a, b) ∈ res ∨ noSpace b = true := by
  induction rs generalizing res with
  | nil => simp only [requireLoop] at h; rw [Step.next.inj h]; exact Or.inl hm
  | cons f fs ih =>
    cases hs : f.Syntax with
    | none =>
      rw [requireLoop_cons_none _ _ hs] at h
      exact ih h
    | some syn =>
      obtain ⟨pol, hres, hl⟩ := requireLoop_cons_next hs h
      rcases ih hl with h1 | h1
      · rcases mem_storePolicy h1 with ⟨_, hb, hn, _⟩ | h3
        · right
          rw [hb]
          rcases resolvePolicy_origin hres with hp | hp
          · rcases hcur with hc | hc
            · exact absurd (hp.trans hc) hn
            · rw [hp]; exact hc
          · exact hp
        · exact Or.inl h3
      · exact Or.inr h1

/-- When a leading or trailing comment of the version declaration carries a
directive for the namespace, `Parse` returns a nil map and an error in every
manifest whose module declaration is present with its syntax, whatever the
comments of that declaration and whatever the requirement entries; and in no
manifest with such a comment does `Parse` return a map, partial or not. -/
theorem Parse_of_go_directive (mod : File) (nspace nilPolicy : String)
    (g : Go) (gsyn : Line) (c : Comment)
    (hg : mod.Go = some g) (hgs : g.Syntax = some gsyn)
    (hc : c ∈ gsyn.comments) (hd : carriesDirective c.Token nspace = true) :
    (∀ mo msyn, mod.Module = some mo → mo.Syntax = some msyn →
      ∃ e, Parse mod nspace nilPolicy = .returned none (some e)) ∧
    (∀ m err, Parse mod nspace nilPolicy ≠ .returned (some m) err) := by
  have ht : c.Token ≠ "" := by
    intro h
    rw [h, carriesDirective_empty] at hd
    exact Bool.false_ne_true hd
  obtain ⟨pol, hpol⟩ := goLoop_eq_some nspace gsyn.comments c hc ht
  have hpol' : goLoop nspace (gsyn.Before ++ gsyn.Suffix) = some (.invalidPosition pol) := hpol
  have hgo : goCheck mod nspace = .fail (.invalidPosition pol) := by
    simp [goCheck, hg, hgs, hpol']
  constructor
  · intro mo msyn hm hms
    obtain ⟨cur, hcur⟩ := moduleDefault_total hm hms nspace nilPolicy
    exact ⟨.invalidPosition pol, by simp [Parse, hcur, hgo]⟩
  · intro m err
    unfold Parse
    cases moduleDefault mod nspace nilPolicy with
    | panic => simp
    | fail e => simp
    | next cur => simp [hgo]

/-- A key whose lookup finds nothing has no pair in the map. -/
theorem not_mem_of_mapGet_none {m : PolicyMap} {k : String} (h : mapGet m k = none) :
    ∀ v, (k, v) ∉ m := by
  induction m with
  | nil => simp
  | cons kv m ih =>
    obtain ⟨a, b⟩ := kv
    simp only [mapGet, List.lookup_cons] at h ih
    by_cases hk : k = a
    · subst hk; simp at h
    · have h2 : (k == a) = false := by simpa using hk
      rw [h2] at h
      intro v hv
      rcases List.mem_cons.mp hv with h' | h'
      · exact hk (Prod.mk.inj h').1
      · exact ih h v h'

/-! ## The claims -/

/-- C1: when `Parse` returns a map, a requirement entry whose own leading or
trailing comments carry a non-empty directive resolves to the last of these
directives, whatever the default policy and whatever the file (so whatever
its enclosing block carries); if no later entry has its path, the map holds
the path with that policy when the policy differs from `nilPolicy` and has no
pair for the path when it equals `nilPolicy`. -/
theorem entry_directive_takes_precedence (mod : File) (nspace nilPolicy : String)
    (m : PolicyMap) (pre post : List Require) (r : Require) (syn : Line) (p : String)
    (hparse : Parse mod nspace nilPolicy = .returned (some m) none)
    (hreq : mod.Require = pre ++ r :: post)
    (hsyn : r.Syntax = some syn)
    (hdir : (directives nspace syn.comments).getLast? = some p) :
    (∀ cur, resolvePolicy mod nspace cur syn = .next p) ∧
    ((∀ r' ∈ post, r'.Mod.Path ≠ r.Mod.Path) →
      mapGet m r.Mod.Path = if p = nilPolicy then none else some p) := by
  obtain ⟨cur, _, _, hloop⟩ := (Parse_eq_ok_iff mod nspace nilPolicy m).mp hparse
  rw [hreq] at hloop
  constructor
  · intro cur'
    obtain ⟨_, pol, _, hres, _⟩ := requireLoop_split hsyn hloop
    obtain ⟨q', hq'⟩ := resolvePolicy_next_any hres cur'
    rw [hq', resolvePolicy_of_entry hdir hq']
  · intro hlast
    obtain ⟨pol, hres, hget⟩ := requireLoop_mapGet_last hsyn hlast hloop
    have hpol : pol = p := resolvePolicy_of_entry hdir hres
    rw [hget, hpol]
    simp [last_directives_ne_empty hdir]

/-- C1, on `precedenceFile`: the entry resolves to its trailing directive and
the map holds it. -/
theorem entry_directive_takes_precedence_witness :
    Parse precedenceFile "gomodjail" "unconfined" =
        .returned (some [("example.com/dep", "fourth")]) none ∧
      (directives "gomodjail" precedenceEntry.comments).getLast? = some "fourth" ∧
      moduleDefault precedenceFile "gomodjail" "unconfined" = .next "first" ∧
      resolvePolicy precedenceFile "gomodjail" "first" precedenceEntry = .next "fourth" ∧
      mapGet [("example.com/dep", "fourth")] "example.com/dep" = some "fourth" :=
  have h := entry_directive_takes_precedence precedenceFile "gomodjail" "unconfined"
    [("example.com/dep", "fourth")] [] [] (exRequire "example.com/dep" precedenceEntry)
    precedenceEntry "fourth" (by decide) (by decide) (by decide) (by decide)
  ⟨by decide, by decide, by decide, h.1 "first", by simpa using h.2 (by simp)⟩

/-- C2: when `Parse` returns a map, an entry marked `InBlock` that has no
non-empty directive of its own, and for which the first line block of the
statement list whose line span contains its span carries a non-empty
directive, resolves to the first such directive `p` of that block, whatever
the default policy; if no later entry has its path, the map holds the path
with `p` when `p` differs from `nilPolicy` and has no pair for the path when
`p` equals `nilPolicy`. -/
theorem block_directive_overrides_default (mod : File) (nspace nilPolicy : String)
    (m : PolicyMap) (pre post : List Require) (r : Require) (syn : Line)
    (fs : FileSyntax) (s1 s2 : List Expr) (lb : LineBlock) (p : String)
    (hparse : Parse mod nspace nilPolicy = .returned (some m) none)
    (hreq : mod.Require = pre ++ r :: post)
    (hsyn : r.Syntax = some syn)
    (hin : syn.InBlock = true)
    (hfs : mod.Syntax = some fs)
    (hstmt : fs.Stmt = s1 ++ Expr.lineBlock lb :: s2)
    (hfirst : ∀ lb', Expr.lineBlock lb' ∈ s1 → ¬ lb'.encloses syn)
    (henc : lb.encloses syn)
    (hown : directives nspace syn.comments = [])
    (hp : (directives nspace lb.comments).head? = some p) :
    (∀ cur, resolvePolicy mod nspace cur syn = .next p) ∧
    ((∀ r' ∈ post, r'.Mod.Path ≠ r.Mod.Path) →
      mapGet m r.Mod.Path = if p = nilPolicy then none else some p) := by
  have hlb : findLineBlock fs.Stmt syn = some lb := by
    rw [hstmt]; exact findLineBlock_of_first hfirst henc
  have hres : ∀ cur, resolvePolicy mod nspace cur syn = .next p :=
    fun cur => resolvePolicy_of_block hin hfs hlb hp hown
  refine ⟨hres, fun hlast => ?_⟩
  obtain ⟨cur, _, _, hloop⟩ := (Parse_eq_ok_iff mod nspace nilPolicy m).mp hparse
  rw [hreq] at hloop
  obtain ⟨pol, hres', hget⟩ := requireLoop_mapGet_last hsyn hlast hloop
  have hpol : pol = p := by
    rw [hres cur] at hres'
    exact (Step.next.inj hres').symm
  rw [hget, hpol]
  simp [head_directives_ne_empty hp]

/-- C2, on `blockFile`: the first entry resolves to the directive of its block
and the map holds it. -/
theorem block_directive_overrides_default_witness :
    Parse blockFile "gomodjail" "unconfined" =
        .returned (some [("example.com/other", "second"), ("example.com/dep", "second")]) none ∧
      moduleDefault blockFile "gomodjail" "unconfined" = .next "first" ∧
      resolvePolicy blockFile "gomodjail" "first" blockEntry = .next "second" ∧
      mapGet [("example.com/other", "second"), ("example.com/dep", "second")]
        "example.com/dep" = some "second" :=
  have h := block_directive_overrides_default blockFile "gomodjail" "unconfined"
    [("example.com/other", "second"), ("example.com/dep", "second")] []
    [exRequire "example.com/other" (exLine 8 [] [exComment 8 "// indirect"] true)]
    (exRequire "example.com/dep" blockEntry) blockEntry
    ⟨[.line (exLine 2 [exComment 1 "// gomodjail:first"] [] false),
      .line (exLine 4 [] [] false), .lineBlock blockOfBlockFile]⟩
    [.line (exLine 2 [exComment 1 "// gomodjail:first"] [] false), .line (exLine 4 [] [] false)]
    [] blockOfBlockFile "second"
    (by decide) (by decide) (by decide) (by decide) (by decide) (by decide)
    (by intro lb' hlb'; simp at hlb') (by decide) (by decide) (by decide)
  ⟨by decide, by decide, h.1 "first", by simpa using h.2 (by decide)⟩

/-- C3, at `lostDefaultFile`: the leading comments of the module declaration
carry the one directive `confined`, yet the running default after the first
loop is the empty string, and the entry without any directive is left out of
the map instead of being stored with `confined`. -/
theorem default_lost_after_plain_comment :
    directives "gomodjail" lostDefaultComments = ["confined"] ∧
      moduleDefault lostDefaultFile "gomodjail" "unconfined" = .next "" ∧
      resolvePolicy lostDefaultFile "gomodjail" "" (exLine 7 [] [] false) = .next "" ∧
      Parse lostDefaultFile "gomodjail" "unconfined" = .returned (some []) none := by
  decide

/-- C4, at `noModuleGoDirectiveFile`: a trailing comment of the version
declaration carries a directive for the namespace, yet `Parse` stops with a
run-time failure instead of returning a nil map and an error, because the
manifest has no module declaration; on `goDirectiveFile`, the same manifest
with a module declaration, it returns the nil map and the position error. -/
theorem go_directive_without_module_fails_at_run_time :
    carriesDirective "// gomodjail:confined" "gomodjail" = true ∧
      Parse noModuleGoDirectiveFile "gomodjail" "unconfined" = .panic ∧
      Parse goDirectiveFile "gomodjail" "unconfined" =
        .returned none (some (.invalidPosition "confined")) := by
  decide

/-- C5, at `plainGoCommentFile`: no comment of the manifest carries a
directive, yet `Parse` returns a nil map and the position error, because of
the comment on the version line. -/
theorem plain_go_comment_is_rejected :
    carriesDirective "// the oldest toolchain we test with" "gomodjail" = false ∧
      policyOf "// the oldest toolchain we test with" "gomodjail" = "" ∧
      Parse plainGoCommentFile "gomodjail" "unconfined" =
        .returned none (some (.invalidPosition "")) := by
  decide

/-- C6: when `Parse` returns a map, no pair of the map has `nilPolicy` as its
value and no lookup in the map gives `nilPolicy`; and a dependency whose
resolved policy is the baseline is omitted: when the entry that no later
entry shares its path with resolves to `nilPolicy`, the map has no pair for
the path, whatever an earlier entry for the path had stored. -/
theorem nilPolicy_is_never_stored (mod : File) (nspace nilPolicy : String) (m : PolicyMap)
    (hparse : Parse mod nspace nilPolicy = .returned (some m) none) :
    (∀ k v, (k, v) ∈ m → v ≠ nilPolicy) ∧ (∀ k v, mapGet m k = some v → v ≠ nilPolicy) ∧
    (∀ pre r post syn cur, mod.Require = pre ++ r :: post → r.Syntax = some syn →
      (∀ r' ∈ post, r'.Mod.Path ≠ r.Mod.Path) →
      moduleDefault mod nspace nilPolicy = .next cur →
      resolvePolicy mod nspace cur syn = .next nilPolicy →
      mapGet m r.Mod.Path = none ∧ ∀ v, (r.Mod.Path, v) ∉ m) := by
  obtain ⟨cur, hcur, _, hloop⟩ := (Parse_eq_ok_iff mod nspace nilPolicy m).mp hparse
  have h1 : ∀ k v, (k, v) ∈ m → v ≠ nilPolicy := by
    intro k v hkv
    rcases requireLoop_mem hloop hkv with h | ⟨_, h, _⟩
    · cases h
    · exact h
  refine ⟨h1, fun k v hget => h1 k v (mem_of_mapGet hget), ?_⟩
  intro pre r post syn cur' hreq hsyn hlast hcur' hres
  have e : cur = cur' := by
    rw [hcur] at hcur'
    exact Step.next.inj hcur'
  subst e
  rw [hreq] at hloop
  obtain ⟨pol, hres', hget⟩ := requireLoop_mapGet_last hsyn hlast hloop
  rw [hres] at hres'
  have hnone : mapGet m r.Mod.Path = none := by
    rw [hget, ← Step.next.inj hres']
    simp
  exact ⟨hnone, not_mem_of_mapGet_none hnone⟩

/-- C6, on the manifest of the test case `global` and on `duplicateFile`: no
value of the map is `unconfined`, and the path `example.com/modX`, whose
first entry has the directive `confined` and whose last entry resolves to
`unconfined`, has no pair in the map. -/
theorem nilPolicy_is_never_stored_witness :
    Parse testGlobalFile "gomodjail" "unconfined" = .returned (some testGlobalExpected) none ∧
      mapGet testGlobalExpected "example.com/mod100" = some "confined" ∧
      "confined" ≠ "unconfined" ∧
      mapGet testGlobalExpected "example.com/mod101" = none ∧
      Parse duplicateFile "gomodjail" "unconfined" =
        .returned (some [("example.com/modY", "confined")]) none ∧
      resolvePolicy duplicateFile "gomodjail" "unconfined" duplicateLast =
        .next "unconfined" ∧
      mapGet [("example.com/modY", "confined")] "example.com/modX" = none :=
  ⟨by decide, by decide,
    (nilPolicy_is_never_stored testGlobalFile "gomodjail" "unconfined" testGlobalExpected
      (by decide)).2.1 "example.com/mod100" "confined" (by decide),
    by decide, by decide, by decide,
    ((nilPolicy_is_never_stored duplicateFile "gomodjail" "unconfined"
      [("example.com/modY", "confined")] (by decide)).2.2
      [exRequire "example.com/modX" (exLine 5 [] [exComment 5 "// gomodjail:confined"] false),
        exRequire "example.com/modY" (exLine 6 [] [exComment 6 "// gomodjail:confined"] false)]
      ⟨⟨"example.com/modX", "v1.2.4"⟩, false, some duplicateLast⟩ [] duplicateLast
      "unconfined" (by decide) (by decide) (by simp) (by decide) (by decide)).1⟩

/-- C8: for a namespace and a policy without white space, the namespace not
beginning with `//` and the policy neither empty nor `nilPolicy`, `Parse` of a
manifest whose module and version declarations have no comment and whose only
requirement is an entry outside any block, with no leading comment and the
one trailing comment `// namespace:policy`, returns a nil error and the map
with the one pair of the path of the entry and the policy. -/
theorem single_directive_end_to_end (mod : File) (nspace nilPolicy p : String)
    (mo : Module) (msyn : Line) (g : Go) (gsyn : Line) (r : Require) (syn : Line) (c : Comment)
    (hns : noSpace nspace = true) (hp : noSpace p = true)
    (hslash : hasPrefix nspace "//" = false) (hpe : p ≠ "") (hpn : p ≠ nilPolicy)
    (hm : mod.Module = some mo) (hms : mo.Syntax = some msyn)
    (hmb : msyn.Before = []) (hmsuf : msyn.Suffix = [])
    (hg : mod.Go = some g) (hgs : g.Syntax = some gsyn)
    (hgb : gsyn.Before = []) (hgsuf : gsyn.Suffix = [])
    (hreq : mod.Require = [r]) (hsyn : r.Syntax = some syn) (hin : syn.InBlock = false)
    (hb : syn.Before = []) (hsuf : syn.Suffix = [c])
    (hc : c.Token = "// " ++ nspace ++ ":" ++ p) :
    Parse mod nspace nilPolicy = .returned (some [(r.Mod.Path, p)]) none := by
  rw [Parse_eq_ok_iff]
  refine ⟨nilPolicy, ?_, ?_, ?_⟩
  · simp [moduleDefault, hm, hms, hmb, hmsuf, moduleLoop]
  · simp [goCheck, hg, hgs, hgb, hgsuf, goLoop]
  · have hd : directives nspace syn.comments = [p] := by
      simp [Line.comments, hb, hsuf, directives, hc, policyOf_plain nspace p hns hp hslash, hpe]
    have hres : resolvePolicy mod nspace nilPolicy syn = .next p := by
      rw [resolvePolicy_eq, blockPolicy_eq]
      simp [hin, hd, hpe]
    rw [hreq, requireLoop_cons_some _ _ hsyn, hres]
    simp [requireLoop, storePolicy, hpn, hpe, mapSet, mapDelete]

/-- C8, on the manifest of the test case `blockless`: `Parse` returns the one
pair the test expects. -/
theorem single_directive_end_to_end_witness :
    Parse testBlocklessFile "gomodjail" "unconfined" =
      .returned (some [("example.com/mod", "confined")]) none :=
  single_directive_end_to_end testBlocklessFile "gomodjail" "unconfined" "confined"
    ⟨⟨"example.com/foo", ""⟩, some (exLine 2 [] [] false)⟩ (exLine 2 [] [] false)
    ⟨"1.23", some (exLine 4 [] [] false)⟩ (exLine 4 [] [] false)
    (exRequire "example.com/mod" (exLine 6 [] [exComment 6 "// gomodjail:confined"] false))
    (exLine 6 [] [exComment 6 "// gomodjail:confined"] false)
    (exComment 6 "// gomodjail:confined")
    (by decide) (by decide) (by decide) (by decide) (by decide) (by decide) (by decide)
    (by decide) (by decide) (by decide) (by decide) (by decide) (by decide) (by decide)
    (by decide) (by decide) (by decide) (by decide) (by decide)

/-- C9: `policyFromComment` returns a nil error and the directive the
specification describes: with one leading `//` removed from the text and the
rest split into fields, what follows `namespace:` in the first field that,
after one leading `//` is removed from it, begins with `namespace:` (empty
when there is none); the fields before that field and after it play no part;
and for a namespace and a policy without white space, the namespace not
beginning with `//`, the texts `// indirect; ns:p`, `// indirect // ns:p`,
`// indirect //ns:p` and `//ns:p` all give `p`. -/
theorem policyFromComment_extracts_first_match :
    (∀ token nspace, policyFromComment token nspace = (specDirective token nspace, none)) ∧
    (∀ token nspace f before after,
      fields (trimPrefix token "//") = before ++ f :: after →
      (∀ g ∈ before, hasPrefix (trimPrefix g "//") (nspace ++ ":") = false) →
      hasPrefix (trimPrefix f "//") (nspace ++ ":") = true →
      policyFromComment token nspace =
        (trimPrefix (trimPrefix f "//") (nspace ++ ":"), none)) ∧
    (∀ nspace p, noSpace nspace = true → noSpace p = true → hasPrefix nspace "//" = false →
      policyFromComment ("// indirect; " ++ nspace ++ ":" ++ p) nspace = (p, none) ∧
      policyFromComment ("// indirect // " ++ nspace ++ ":" ++ p) nspace = (p, none) ∧
      policyFromComment ("// indirect //" ++ nspace ++ ":" ++ p) nspace = (p, none) ∧
      policyFromComment ("//" ++ nspace ++ ":" ++ p) nspace = (p, none)) := by
  refine ⟨?_, ?_, ?_⟩
  · intro token nspace
    rw [policyFromComment_eq, policyOf_eq_specDirective]
  · intro token nspace f before after hfields hb hf
    rw [policyFromComment, hfields]
    exact policyFromCommentLoop_first _ _ _ _ hb hf
  · intro nspace p hn hp hs
    simp only [policyFromComment_eq]
    rw [policyOf_after_semicolon nspace p hn hp hs,
      policyOf_after_nested_marker nspace p hn hp hs,
      policyOf_after_attached_marker nspace p hn hp, policyOf_bare nspace p hn hp hs]
    exact ⟨rfl, rfl, rfl, rfl⟩

/-- C9, for the namespace `gomodjail` and the policy `confined`: the four
texts of the claim, and a text with a second directive after the first. -/
theorem policyFromComment_extracts_first_match_witness :
    (policyFromComment "// indirect; gomodjail:confined" "gomodjail" = ("confined", none) ∧
      policyFromComment "// indirect // gomodjail:confined" "gomodjail" = ("confined", none) ∧
      policyFromComment "// indirect //gomodjail:confined" "gomodjail" = ("confined", none) ∧
      policyFromComment "//gomodjail:confined" "gomodjail" = ("confined", none)) ∧
    policyFromComment "// indirect; gomodjail:confined gomodjail:other" "gomodjail" =
      ("confined", none) :=
  ⟨policyFromComment_extracts_first_match.2.2 "gomodjail" "confined"
      (by decide) (by decide) (by decide),
    policyFromComment_extracts_first_match.2.1
      "// indirect; gomodjail:confined gomodjail:other" "gomodjail" "gomodjail:confined"
      ["indirect;"] ["gomodjail:other"] (by decide) (by decide) (by decide)⟩

/-- C10: when `Parse` returns a map on each of two manifests that differ at
most in the comments attached to requirement entries whose path is not `d`,
the two maps agree on `d`: the same presence and the same value; and when
`Parse` returns a map, an entry that has no non-empty directive of its own,
whose enclosing block (if it is in one) has none, in a manifest whose module
line has none, and whose path no later entry has, is left out of the map,
whatever the entries before it carry. -/
theorem entry_directive_does_not_carry_over (nspace nilPolicy : String) :
    (∀ (mod1 mod2 : File) (m1 m2 : PolicyMap) (d : String),
      Parse mod1 nspace nilPolicy = .returned (some m1) none →
      Parse mod2 nspace nilPolicy = .returned (some m2) none →
      mod1.sameButEntryCommentsOff d mod2 →
      mapGet m1 d = mapGet m2 d) ∧
    (∀ (mod : File) (m : PolicyMap) (pre post : List Require) (r : Require) (syn : Line),
      Parse mod nspace nilPolicy = .returned (some m) none →
      mod.Require = pre ++ r :: post → r.Syntax = some syn →
      directives nspace syn.comments = [] →
      (syn.InBlock = true → ∀ fs lb, mod.Syntax = some fs →
        findLineBlock fs.Stmt syn = some lb → directives nspace lb.comments = []) →
      (∀ mo msyn, mod.Module = some mo → mo.Syntax = some msyn →
        directives nspace msyn.comments = []) →
      (∀ r' ∈ post, r'.Mod.Path ≠ r.Mod.Path) →
      mapGet m r.Mod.Path = none) := by
  constructor
  · intro mod1 mod2 m1 m2 d hp1 hp2 ⟨hmod, _, hst, hrs⟩
    obtain ⟨c1, hc1, _, hl1⟩ := (Parse_eq_ok_iff mod1 nspace nilPolicy m1).mp hp1
    obtain ⟨c2, hc2, _, hl2⟩ := (Parse_eq_ok_iff mod2 nspace nilPolicy m2).mp hp2
    have hc : c2 = c1 := by
      simp only [moduleDefault, hmod] at hc1
      simp only [moduleDefault] at hc2
      rw [hc2] at hc1
      exact Step.next.inj hc1
    subst hc
    exact requireLoop_agree hst hrs rfl hl1 hl2
  · intro mod m pre post r syn hp hreq hsyn hown hblock hmodule hlast
    obtain ⟨cur, hcur, _, hloop⟩ := (Parse_eq_ok_iff mod nspace nilPolicy m).mp hp
    rw [hreq] at hloop
    obtain ⟨pol, hres, hget⟩ := requireLoop_mapGet_last hsyn hlast hloop
    have hpol : pol = cur := resolvePolicy_of_default hown hblock hres
    have hcur' : cur = nilPolicy ∨ cur = "" := by
      simp only [moduleDefault] at hcur
      cases hm : mod.Module with
      | none => simp [hm] at hcur
      | some mo =>
        cases hms : mo.Syntax with
        | none => simp [hm, hms] at hcur
        | some msyn =>
          simp only [hm, hms] at hcur
          exact moduleLoop_of_no_directive (hmodule mo msyn hm hms) hcur
    rw [hget, hpol, if_pos hcur']

/-- C10, on `carryFile` and `carryFileBare`, which differ in the comment of
the entry for `example.com/mod100`: the maps agree on `example.com/mod101`,
and the entry for it, which follows the entry with the directive, is left
out. -/
theorem entry_directive_does_not_carry_over_witness :
    Parse carryFile "gomodjail" "unconfined" =
        .returned (some [("example.com/mod100", "confined")]) none ∧
      Parse carryFileBare "gomodjail" "unconfined" = .returned (some []) none ∧
      mapGet [("example.com/mod100", "confined")] "example.com/mod101" =
        mapGet [] "example.com/mod101" ∧
      mapGet [("example.com/mod100", "confined")] "example.com/mod101" = none :=
  have h := entry_directive_does_not_carry_over "gomodjail" "unconfined"
  ⟨by decide, by decide,
    h.1 carryFile carryFileBare [("example.com/mod100", "confined")] [] "example.com/mod101"
      (by decide) (by decide)
      ⟨rfl, rfl, rfl,
        List.Forall₂.cons (Or.inr ⟨by decide, rfl, rfl, rfl, rfl, rfl⟩)
          (List.Forall₂.cons (Or.inl rfl) List.Forall₂.nil)⟩,
    h.2 carryFile [("example.com/mod100", "confined")]
      [exRequire "example.com/mod100" (exLine 6 [] [exComment 6 "// gomodjail:confined"] true)]
      [] (exRequire "example.com/mod101" carryPlainEntry) carryPlainEntry
      (by decide) (by decide) (by decide) (by decide)
      (by
        intro _ fs lb hfs hlb
        have e : fs = ⟨[.line (exLine 1 [] [] false), .line (exLine 3 [] [] false),
            .lineBlock carryBlock]⟩ := (Option.some.inj hfs).symm
        subst e
        have e2 : lb = carryBlock := by
          have : findLineBlock [.line (exLine 1 [] [] false), .line (exLine 3 [] [] false),
            .lineBlock carryBlock] carryPlainEntry = some carryBlock := by decide
          rw [this] at hlb
          exact (Option.some.inj hlb).symm
        subst e2
        decide)
      (by
        intro mo msyn hmo hms
        have e : mo = ⟨⟨"example.com/foo", ""⟩, some (exLine 1 [] [] false)⟩ :=
          (Option.some.inj hmo).symm
        subst e
        have e2 : msyn = exLine 1 [] [] false := (Option.some.inj hms).symm
        subst e2
        decide)
      (by simp)⟩

/-- C11, as the claim words it, fails at the text `//gomodjail:confined` of
the test case `basic`: its only field, `//gomodjail:confined`, does not begin
with `gomodjail:`, and `policyFromComment` returns `confined`, not the empty
string, because it removes the leading `//` first. -/
theorem raw_field_without_match_still_yields_policy :
    (fields "//gomodjail:confined" = ["//gomodjail:confined"] ∧
      hasPrefix "//gomodjail:confined" ("gomodjail" ++ ":") = false ∧
      policyFromComment "//gomodjail:confined" "gomodjail" = ("confined", none)) ∧
    ¬ (∀ token nspace : String,
        (∀ f ∈ fields token, hasPrefix f (nspace ++ ":") = false) →
        (policyFromComment token nspace).1 = "") := by
  refine ⟨by decide, fun h => ?_⟩
  have h1 := h "//gomodjail:confined" "gomodjail" (by decide)
  revert h1
  decide

/-- C11, amended: `policyFromComment` returns a nil error for every comment
text and every namespace, and the empty string when no field of the text,
once one leading `//` is removed from the text and one from the field, begins
with the namespace and a colon; so `policyFromLineBlock` returns a nil error
too, and `Parse` never returns the error `failed to parse comment` nor the
error `failed to parse line block`. -/
theorem policyFromComment_never_fails :
    (∀ token nspace, (policyFromComment token nspace).2 = none) ∧
    (∀ token nspace,
      (∀ f ∈ fields (trimPrefix token "//"),
        hasPrefix (trimPrefix f "//") (nspace ++ ":") = false) →
      (policyFromComment token nspace).1 = "") ∧
    (∀ lb nspace, (policyFromLineBlock lb nspace).2 = none) ∧
    (∀ mod nspace nilPolicy res c cause,
      Parse mod nspace nilPolicy ≠ .returned res (some (.failedComment c cause))) ∧
    (∀ mod nspace nilPolicy res lb cause,
      Parse mod nspace nilPolicy ≠ .returned res (some (.failedLineBlock lb cause))) := by
  refine ⟨policyFromComment_snd, ?_, ?_, ?_, ?_⟩
  · intro token nspace h
    rw [policyFromComment, policyFromCommentLoop_of_no_match _ _ h]
  · intro lb nspace
    rw [policyFromLineBlock_eq]
  · intro mod nspace nilPolicy res c cause h
    obtain ⟨pol, hpol⟩ := goCheck_fail_invalidPosition (Parse_error_from_goCheck h).2
    cases hpol
  · intro mod nspace nilPolicy res lb cause h
    obtain ⟨pol, hpol⟩ := goCheck_fail_invalidPosition (Parse_error_from_goCheck h).2
    cases hpol

/-- C11 amended, on a text whose fields are `indirect;` and
`GoModJail:confined`: no directive for `gomodjail`, and no error. -/
theorem policyFromComment_never_fails_witness :
    policyFromComment "// indirect; GoModJail:confined" "gomodjail" = ("", none) := by
  have h := policyFromComment_never_fails.2.1 "// indirect; GoModJail:confined" "gomodjail"
    (by decide)
  have h2 := policyFromComment_never_fails.1 "// indirect; GoModJail:confined" "gomodjail"
  exact Prod.ext h h2

/-- C12: `findLineBlock` returns the first line block of the statement list,
in list order, whose start line is at most the start line of the entry and
whose end line is at least the end line of the entry; it returns a block
exactly when the list splits around that block with no such block before it,
and none exactly when no line block of the list contains the span of the
entry; a statement that is not a line block is never returned. -/
theorem findLineBlock_returns_first_enclosing_block (stmts : List Expr) (line : Line) :
    findLineBlock stmts line =
        (lineBlocks stmts).find? (fun lb => decide (lb.encloses line)) ∧
    (∀ lb, findLineBlock stmts line = some lb ↔
      ∃ s1 s2, stmts = s1 ++ Expr.lineBlock lb :: s2 ∧
        (∀ lb', Expr.lineBlock lb' ∈ s1 → ¬ lb'.encloses line) ∧ lb.encloses line) ∧
    (findLineBlock stmts line = none ↔
      ∀ lb, Expr.lineBlock lb ∈ stmts → ¬ lb.encloses line) := by
  refine ⟨findLineBlock_eq_find stmts line, fun lb => ⟨findLineBlock_some_split, ?_⟩,
    findLineBlock_eq_none_iff stmts line⟩
  rintro ⟨s1, s2, hs, hf, he⟩
  rw [hs]
  exact findLineBlock_of_first hf he


/-- C12, on the statement list of the test case `global` and the entry on
line 24: the block found is the third one, lines 23 to 27, and for a line
outside every block none is found. -/
theorem findLineBlock_returns_first_enclosing_block_witness :
    findLineBlock globalStmts (exLine 24 [] [] true) = some globalThirdBlock ∧
      findLineBlock globalStmts (exLine 40 [] [] false) = none :=
  have h := findLineBlock_returns_first_enclosing_block globalStmts (exLine 24 [] [] true)
  have h' := findLineBlock_returns_first_enclosing_block globalStmts (exLine 40 [] [] false)
  ⟨(h.2.1 globalThirdBlock).mpr
      ⟨[.line (exLine 3 [exComment 2 "// gomodjail:confined"] [] false),
          .line (exLine 5 [] [] false),
          .lineBlock ⟨[], [], ⟨7⟩, ⟨13⟩⟩, .lineBlock ⟨[], [], ⟨15⟩, ⟨20⟩⟩],
        [.lineBlock ⟨[exComment 29 "// gomodjail:confined"], [], ⟨30⟩, ⟨34⟩⟩],
        by decide,
        by
          intro lb' hm
          simp at hm
          rcases hm with rfl | rfl <;> decide,
        by decide⟩,
    h'.2.2.mpr (by
      intro lb hm
      simp [globalStmts] at hm
      rcases hm with rfl | rfl | rfl | rfl <;> decide)⟩

/-- C13: when `policyFromComment` returns a non-empty policy `p`, the string
`namespace:p` occurs in the comment text as a run of consecutive characters,
letter case included; hence a text in which `namespace:` does not occur
exactly, such as one that spells the namespace in another letter case, gives
no directive. -/
theorem directive_occurs_literally_in_text (token nspace : String) :
    (∀ p, (policyFromComment token nspace).1 = p → p ≠ "" →
      occursIn (nspace ++ ":" ++ p) token) ∧
    (¬ occursIn (nspace ++ ":") token → policyFromComment token nspace = ("", none)) := by
  have h1 : ∀ p, (policyFromComment token nspace).1 = p → p ≠ "" →
      occursIn (nspace ++ ":" ++ p) token := by
    intro p hp hne
    have hp' : policyOf token nspace = p := hp
    rw [← hp'] at hne ⊢
    exact policyOf_occurs hne
  refine ⟨h1, fun hno => ?_⟩
  rw [policyFromComment_eq]
  by_cases hp : policyOf token nspace = ""
  · rw [hp]
  · exfalso
    apply hno
    have h2 : (nspace ++ ":" ++ policyOf token nspace).data <:+: token.data :=
      policyOf_occurs hp
    have h3 : (nspace ++ ":").data <+: (nspace ++ ":" ++ policyOf token nspace).data := by
      rw [String.data_append (nspace ++ ":")]
      exact List.prefix_append _ _
    exact h3.isInfix.trans h2

/-- C13, on two texts: `// indirect; gomodjail:confined` holds
`gomodjail:confined`, and `// GoModJail:confined`, in which `gomodjail:` does
not occur, gives no directive for `gomodjail`. -/
theorem directive_occurs_literally_in_text_witness :
    policyFromComment "// indirect; gomodjail:confined" "gomodjail" = ("confined", none) ∧
      occursIn "gomodjail:confined" "// indirect; gomodjail:confined" ∧
      ¬ occursIn "gomodjail:" "// GoModJail:confined" ∧
      policyFromComment "// GoModJail:confined" "gomodjail" = ("", none) :=
  ⟨by decide,
    (directive_occurs_literally_in_text "// indirect; gomodjail:confined" "gomodjail").1
      "confined" (by decide) (by decide),
    by decide,
    (directive_occurs_literally_in_text "// GoModJail:confined" "gomodjail").2 (by decide)⟩

/-- C14: a requirement entry that is not marked `InBlock` gets no block-level
policy: whatever the file, so whatever the line blocks of its statement list
and their comments, the block-level step leaves the default untouched and the
entry resolves to the last non-empty directive of its own comments if it has
one and to the default otherwise; and when `Parse` returns a map and no later
entry has the path of such an entry, the content of the map for the path is
that policy, left out when it is `nilPolicy` or empty. -/
theorem standalone_entry_gets_no_block_policy (nspace cur : String) (syn : Line)
    (hin : syn.InBlock = false) :
    (∀ mod : File, blockPolicy mod nspace syn cur = .next cur ∧
      resolvePolicy mod nspace cur syn =
        .next ((directives nspace syn.comments).getLast?.getD cur)) ∧
    (∀ mod mod' : File, resolvePolicy mod nspace cur syn = resolvePolicy mod' nspace cur syn) ∧
    (∀ (mod : File) (nilPolicy : String) (m : PolicyMap) (pre post : List Require)
      (r : Require),
      Parse mod nspace nilPolicy = .returned (some m) none →
      moduleDefault mod nspace nilPolicy = .next cur →
      mod.Require = pre ++ r :: post → r.Syntax = some syn →
      (∀ r' ∈ post, r'.Mod.Path ≠ r.Mod.Path) →
      mapGet m r.Mod.Path =
        if (directives nspace syn.comments).getLast?.getD cur = nilPolicy ∨
            (directives nspace syn.comments).getLast?.getD cur = "" then none
        else some ((directives nspace syn.comments).getLast?.getD cur)) := by
  refine ⟨fun mod => ⟨?_, resolvePolicy_of_standalone mod nspace cur syn hin⟩, ?_, ?_⟩
  · rw [blockPolicy_eq]; simp [hin]
  · intro mod mod'
    rw [resolvePolicy_of_standalone mod nspace cur syn hin,
      resolvePolicy_of_standalone mod' nspace cur syn hin]
  · intro mod nilPolicy m pre post r hparse hcur hreq hsyn hlast
    obtain ⟨cur', hcur', _, hloop⟩ := (Parse_eq_ok_iff mod nspace nilPolicy m).mp hparse
    have e : cur' = cur := by
      rw [hcur'] at hcur
      exact Step.next.inj hcur
    subst e
    rw [hreq] at hloop
    obtain ⟨pol, hres, hget⟩ := requireLoop_mapGet_last hsyn hlast hloop
    rw [resolvePolicy_of_standalone mod nspace cur' syn hin] at hres
    rw [hget, ← Step.next.inj hres]

/-- C14, on `standaloneFile`: the standalone entry resolves to the default
`first` of the module line, not to the directive `second` of the block, and
the map holds it with `first`. -/
theorem standalone_entry_gets_no_block_policy_witness :
    Parse standaloneFile "gomodjail" "unconfined" =
        .returned (some [("example.com/alone", "first"), ("example.com/dep", "second")]) none ∧
      resolvePolicy standaloneFile "gomodjail" "first" standaloneEntry = .next "first" ∧
      mapGet [("example.com/alone", "first"), ("example.com/dep", "second")]
        "example.com/alone" = some "first" :=
  have h := standalone_entry_gets_no_block_policy "gomodjail" "first" standaloneEntry
    (by decide)
  ⟨by decide, (h.1 standaloneFile).2,
    h.2.2 standaloneFile "unconfined"
      [("example.com/alone", "first"), ("example.com/dep", "second")]
      [exRequire "example.com/dep" (exLine 8 [] [] true)] []
      (exRequire "example.com/alone" standaloneEntry)
      (by decide) (by decide) (by decide) (by decide) (by simp)⟩

/-- C15: when `Parse` returns a map, whatever `nilPolicy` is, no value of the
map is the empty string; a comment whose directive has an empty value, such
as `// namespace:`, adds nothing to the directives of an entry or of a block,
as if it were absent, so that the next lower level applies: an entry
resolves to the last non-empty directive of its own comments, else to the
first non-empty directive of its block, else to the default; and an entry
that resolves to the empty string has no pair in the map when no later entry
has its path. -/
theorem empty_policy_is_never_stored (mod : File) (nspace nilPolicy : String) (m : PolicyMap)
    (hparse : Parse mod nspace nilPolicy = .returned (some m) none) :
    ((∀ k v, (k, v) ∈ m → v ≠ "") ∧ (∀ k v, mapGet m k = some v → v ≠ "")) ∧
    (noSpace nspace = true → hasPrefix nspace "//" = false →
      carriesDirective ("// " ++ nspace ++ ":") nspace = true ∧
      policyFromComment ("// " ++ nspace ++ ":") nspace = ("", none)) ∧
    (∀ (cs1 cs2 : List Comment) (c : Comment), policyOf c.Token nspace = "" →
      directives nspace (cs1 ++ c :: cs2) = directives nspace (cs1 ++ cs2)) ∧
    (∀ cur syn, resolvePolicy mod nspace cur syn =
      match blockPolicy mod nspace syn cur with
      | .panic => .panic
      | .fail e => .fail e
      | .next pol =>
        .next (if (directives nspace syn.comments).getLast?.getD pol = "" then cur
               else (directives nspace syn.comments).getLast?.getD pol)) ∧
    (∀ cur syn fs lb, syn.InBlock = true → mod.Syntax = some fs →
      findLineBlock fs.Stmt syn = some lb →
      blockPolicy mod nspace syn cur = .next ((directives nspace lb.comments).head?.getD cur)) ∧
    (∀ pre r post syn cur, mod.Require = pre ++ r :: post → r.Syntax = some syn →
      (∀ r' ∈ post, r'.Mod.Path ≠ r.Mod.Path) →
      moduleDefault mod nspace nilPolicy = .next cur →
      resolvePolicy mod nspace cur syn = .next "" → mapGet m r.Mod.Path = none) := by
  obtain ⟨cur0, hcur0, _, hloop⟩ := (Parse_eq_ok_iff mod nspace nilPolicy m).mp hparse
  have h1 : ∀ k v, (k, v) ∈ m → v ≠ "" := by
    intro k v hkv
    rcases requireLoop_mem hloop hkv with h | ⟨_, _, h⟩
    · cases h
    · exact h
  refine ⟨⟨h1, fun k v hget => h1 k v (mem_of_mapGet hget)⟩, ?_, ?_, ?_, ?_, ?_⟩
  · intro hn hs
    have e : "// " ++ nspace ++ ":" = "// " ++ nspace ++ ":" ++ "" := by simp
    rw [e]
    refine ⟨carriesDirective_plain nspace "" hn (by decide) hs, ?_⟩
    rw [policyFromComment_eq, policyOf_plain nspace "" hn (by decide) hs]
  · exact directives_skip nspace
  · exact resolvePolicy_eq mod nspace
  · intro cur syn fs lb hin hfs hlb
    rw [blockPolicy_eq]
    simp [hin, hfs, hlb]
  · intro pre r post syn cur hreq hsyn hlast hcur hres
    have e : cur0 = cur := by
      rw [hcur0] at hcur
      exact Step.next.inj hcur
    subst e
    rw [hreq] at hloop
    obtain ⟨pol, hres', hget⟩ := requireLoop_mapGet_last hsyn hlast hloop
    rw [hres] at hres'
    rw [hget, ← Step.next.inj hres']
    simp

/-- C15, on `emptyDirectiveFile`: the entry with the directive `gomodjail:`
resolves to the directive `second` of its block, the entry of the block with
the directive `gomodjail:` resolves to the default `first`, and no value of
the map is empty. -/
theorem empty_policy_is_never_stored_witness :
    Parse emptyDirectiveFile "gomodjail" "unconfined" =
        .returned (some [("example.com/other", "first"), ("example.com/dep", "second")]) none ∧
      resolvePolicy emptyDirectiveFile "gomodjail" "first" emptyDirectiveEntry =
        .next "second" ∧
      resolvePolicy emptyDirectiveFile "gomodjail" "first" emptyDirectiveOther =
        .next "first" ∧
      "second" ≠ "" ∧
      carriesDirective "// gomodjail:" "gomodjail" = true ∧
      policyFromComment "// gomodjail:" "gomodjail" = ("", none) :=
  have h := empty_policy_is_never_stored emptyDirectiveFile "gomodjail" "unconfined"
    [("example.com/other", "first"), ("example.com/dep", "second")] (by decide)
  have h2 := h.2.1 (by decide) (by decide)
  ⟨by decide, by decide, by decide,
    h.1.2 "example.com/dep" "second" (by decide), h2.1, h2.2⟩

/-- C16, at `noGoFile` and `noModuleFile`: on a manifest without a version
declaration, and on one without a module declaration, `Parse` stops with a
run-time failure instead of returning a map or an error. -/
theorem parse_fails_at_run_time_without_declaration :
    Parse noGoFile "gomodjail" "unconfined" = .panic ∧
      Parse noModuleFile "gomodjail" "unconfined" = .panic := by
  decide

/-- C17: the policy `policyFromComment` returns has no white space character,
whatever the comment text and the namespace; and when `Parse` returns a map,
no value of the map has a white space character, whatever `nilPolicy` is. -/
theorem policy_has_no_white_space :
    (∀ token nspace, noSpace (policyFromComment token nspace).1 = true) ∧
    (∀ (mod : File) (nspace nilPolicy : String) (m : PolicyMap),
      Parse mod nspace nilPolicy = .returned (some m) none →
      (∀ k v, (k, v) ∈ m → noSpace v = true) ∧
      (∀ k v, mapGet m k = some v → noSpace v = true)) := by
  refine ⟨policyOf_noSpace, ?_⟩
  intro mod nspace nilPolicy m hparse
  obtain ⟨cur, hcur, _, hloop⟩ := (Parse_eq_ok_iff mod nspace nilPolicy m).mp hparse
  have hc : cur = nilPolicy ∨ noSpace cur = true := by
    simp only [moduleDefault] at hcur
    cases hm : mod.Module with
    | none => simp [hm] at hcur
    | some mo =>
      cases hms : mo.Syntax with
      | none => simp [hm, hms] at hcur
      | some msyn =>
        simp only [hm, hms] at hcur
        exact moduleLoop_origin hcur
  have h1 : ∀ k v, (k, v) ∈ m → noSpace v = true := by
    intro k v hkv
    rcases requireLoop_noSpace hc hloop hkv with h | h
    · cases h
    · exact h
  exact ⟨h1, fun k v hget => h1 k v (mem_of_mapGet hget)⟩

/-- C17, on the manifest of the test case `global` with a `nilPolicy` that has
a space, and on a text with two directives: the values are free of white
space. -/
theorem policy_has_no_white_space_witness :
    policyFromComment "// indirect; gomodjail:confined gomodjail:other" "gomodjail" =
        ("confined", none) ∧
      noSpace "confined" = true ∧
      Parse testGlobalFile "gomodjail" "not confined" =
        .returned (some spacedNilExpected) none ∧
      noSpace "unconfined" = true :=
  ⟨by decide,
    policy_has_no_white_space.1 "// indirect; gomodjail:confined gomodjail:other" "gomodjail",
    by decide,
    (policy_has_no_white_space.2 testGlobalFile "gomodjail" "not confined" spacedNilExpected
      (by decide)).1 "example.com/mod401" "unconfined" (by decide)⟩

end GoModDirectiveComments
